import Mathlib

/-!
Verification of the bipartite-matching core of the `letterpakken` repository
(`src/letterpakken/matching.py`).

The Python module decides, for a candidate word and a list of letter sets
("packets"), whether the word's positions can be matched one-to-one to the
packets so that each position's character belongs to its packet.  It builds a
bipartite adjacency list (`is_valid`) and runs Hopcroft–Karp
(`_bfs`, `_dfs`, `_hopcroft_karp`).

Embedding conventions:
* Python `str` words are `List Char`; a `LetterSet` (a `str` of letters, per
  `core.validate_sets`) is a `List Char`, with `ch in s` as list membership.
* Python `int` matching entries (`pairU`, `pairV`, with `-1` as the unmatched
  sentinel) are `Int` lists.
* The `dist` array holds Python ints during `_bfs` (including the sentinel
  `INF = 10**9`) but is set to the float `float("inf")` by a failed `_dfs`;
  the value type `Dval` mirrors this exactly: `Dval.int n` for integers and
  `Dval.finf` for the float infinity, with `Dval.succ` mirroring `+ 1`
  (`float("inf") + 1 == float("inf")`).
* Python's unbounded `while` loop and `_dfs` recursion are given an explicit
  fuel parameter; `none` means the fuel ran out (it never does for the
  canonical budget, which is proved below).
* List reads `xs[i]` are total `getD` reads (`pget`/`dget`/`aget`); the
  well-formedness invariants proved below show every read the Python code
  performs is in range, so the defaults are never observed.
-/

/-- Python `INF: int = 10**9` from `matching.py`. -/
def INF : Nat := 10 ^ 9

/-- Value space of the `dist` array: a Python `int`, or the `float("inf")`
written by a failed `_dfs`. -/
inductive Dval where
  | int : Nat → Dval
  | finf : Dval
deriving DecidableEq, Repr

/-- Mirror of Python `d + 1` on `Dval` values (`float("inf") + 1` is
`float("inf")`). -/
def Dval.succ : Dval → Dval
  | .int n => .int (n + 1)
  | .finf => .finf

/-- The mutable matching state threaded through `_bfs`/`_dfs`:
`pairU` (matched right vertex per left vertex or `-1`),
`pairV` (matched left vertex per right vertex or `-1`), and `dist`. -/
structure HKSt where
  pairU : List Int
  pairV : List Int
  dist : List Dval
deriving DecidableEq, Repr

/-- Read `pairU[i]` / `pairV[i]` (in-range under the proved invariants). -/
def pget (l : List Int) (i : Nat) : Int := l.getD i (-1)

/-- Read `dist[i]` (in-range under the proved invariants). -/
def dget (l : List Dval) (i : Nat) : Dval := l.getD i (Dval.int 0)

/-- Read `adj[u]` (in-range under the proved invariants). -/
def aget (adj : List (List Nat)) (u : Nat) : List Nat := adj.getD u []

/-- Python `[j for j, s in enumerate(letter_sets) if ch in s]` from
`is_valid`. -/
def posEdges (ch : Char) (letterSets : List (List Char)) : List Nat :=
  (letterSets.enum.filter (fun js => decide (ch ∈ js.2))).map Prod.fst

/-- The edge-building loop of `is_valid`: one `posEdges` list per position, in
order, returning `none` at the first position with no eligible packet
(the `if not edges: return False` early exit). -/
def buildAux (letterSets : List (List Char)) : List Char → Option (List (List Nat))
  | [] => some []
  | ch :: rest =>
    let edges := posEdges ch letterSets
    if edges = [] then none
    else (buildAux letterSets rest).map (fun adj => edges :: adj)

/-- The graph-builder part of `is_valid`: `none` exactly on the two early
`return False` paths (`len(word) != k`, or a position with no edges);
otherwise the adjacency list handed to `_hopcroft_karp`. -/
def build (word : List Char) (letterSets : List (List Char)) : Option (List (List Nat)) :=
  if word.length ≠ letterSets.length then none
  else buildAux letterSets word

/-- The inner `for v in adj[u]` loop of `_bfs`: threads `dist`, the pending
queue tail `q`, and the `found` flag, mirroring
`if pu == -1: found = True / elif dist[pu] == INF: dist[pu] = dist[u] + 1;
q.append(pu)`. -/
def bfsScan (pairV : List Int) (u : Nat) : List Nat → List Dval → List Nat → Bool →
    List Dval × List Nat × Bool
  | [], dist, q, found => (dist, q, found)
  | v :: vs, dist, q, found =>
    let pu := pget pairV v
    if pu = -1 then bfsScan pairV u vs dist q true
    else if dget dist pu.toNat = Dval.int INF then
      bfsScan pairV u vs (dist.set pu.toNat (Dval.succ (dget dist u))) (q ++ [pu.toNat]) found
    else bfsScan pairV u vs dist q found

/-- The `while q` loop of `_bfs` (`q.popleft()` then the neighbor scan), with
fuel counting loop iterations. -/
def bfsLoop (adj : List (List Nat)) (pairV : List Int) :
    Nat → List Nat → List Dval → Bool → Option (List Dval × Bool)
  | 0, _, _, _ => none
  | _ + 1, [], dist, found => some (dist, found)
  | fuel + 1, u :: qrest, dist, found =>
    match bfsScan pairV u (aget adj u) dist qrest found with
    | (dist1, q1, found1) => bfsLoop adj pairV fuel q1 dist1 found1

/-- The initialization loop of `_bfs`: `dist[u] = 0` and enqueue for unmatched
left vertices, `dist[u] = INF` otherwise. -/
def bfsInit (pairU : List Int) (nLeft : Nat) : List Dval × List Nat :=
  ((List.range nLeft).map fun u => if pget pairU u = -1 then Dval.int 0 else Dval.int INF,
   (List.range nLeft).filter fun u => pget pairU u = -1)

/-- Python `_bfs(adj, pairU, pairV, dist, n_left)`: rebuilds `dist`, runs the
queue loop, and returns the final `dist` together with the `found` flag. -/
def bfsRun (adj : List (List Nat)) (pairU pairV : List Int) (nLeft fuel : Nat) :
    Option (List Dval × Bool) :=
  bfsLoop adj pairV fuel (bfsInit pairU nLeft).2 (bfsInit pairU nLeft).1 false

/-- The `for v in adj[u]` loop of `_dfs`; `rec` is the recursive `_dfs` call at
one less fuel.  Mirrors
`if pu == -1 or (dist[pu] == dist[u] + 1 and _dfs(pu, ...)):
pairU[u] = v; pairV[v] = u; return True`, and the final
`dist[u] = float("inf"); return False`. -/
def dfsScanGo (rec : Nat → HKSt → Option (Bool × HKSt)) (u : Nat) :
    List Nat → HKSt → Option (Bool × HKSt)
  | [], st => some (false, { st with dist := st.dist.set u Dval.finf })
  | v :: vs, st =>
    let pu := pget st.pairV v
    if pu = -1 then
      some (true, { st with pairU := st.pairU.set u (Int.ofNat v),
                            pairV := st.pairV.set v (Int.ofNat u) })
    else if dget st.dist pu.toNat = Dval.succ (dget st.dist u) then
      match rec pu.toNat st with
      | none => none
      | some (true, st1) =>
        some (true, { st1 with pairU := st1.pairU.set u (Int.ofNat v),
                               pairV := st1.pairV.set v (Int.ofNat u) })
      | some (false, st1) => dfsScanGo rec u vs st1
    else dfsScanGo rec u vs st

/-- Python `_dfs(u, adj, pairU, pairV, dist)`, with fuel bounding the
recursion depth. -/
def dfs (adj : List (List Nat)) : Nat → Nat → HKSt → Option (Bool × HKSt)
  | 0, _, _ => none
  | fuel + 1, u, st => dfsScanGo (dfs adj fuel) u (aget adj u) st

/-- The augmenting pass of `_hopcroft_karp`:
`for u in range(n_left): if pairU[u] == -1 and _dfs(u, ...): matching += 1`. -/
def hkPhase (adj : List (List Nat)) (fuel : Nat) :
    List Nat → HKSt → Nat → Option (HKSt × Nat)
  | [], st, matching => some (st, matching)
  | u :: us, st, matching =>
    if pget st.pairU u = -1 then
      match dfs adj fuel u st with
      | none => none
      | some (true, st1) => hkPhase adj fuel us st1 (matching + 1)
      | some (false, st1) => hkPhase adj fuel us st1 matching
    else hkPhase adj fuel us st matching

/-- The `while _bfs(...)` driver loop of `_hopcroft_karp`, with `loopFuel`
bounding the number of phases and `fuel` feeding `_bfs`/`_dfs`. -/
def hkLoop (adj : List (List Nat)) (nLeft fuel : Nat) :
    Nat → HKSt → Nat → Option (Nat × HKSt)
  | 0, _, _ => none
  | loopFuel + 1, st, matching =>
    match bfsRun adj st.pairU st.pairV nLeft fuel with
    | none => none
    | some (dist1, found) =>
      if found then
        match hkPhase adj fuel (List.range nLeft) { st with dist := dist1 } matching with
        | none => none
        | some (st1, m1) => hkLoop adj nLeft fuel loopFuel st1 m1
      else some (matching, { st with dist := dist1 })

/-- Python `_hopcroft_karp(adj, n_left, n_right)`.  The `ValueError` raised
when `len(adj) != n_left` is `Except.error`; a normal return
`(matching, pairU, pairV)` is `Except.ok`; `none` means the fuel ran out
(never, for the canonical budget). -/
def hopcroftKarp (adj : List (List Nat)) (nLeft nRight : Nat) (fuel : Nat) :
    Option (Except String (Nat × List Int × List Int)) :=
  if adj.length ≠ nLeft then some (Except.error "adj must have length n_left")
  else
    (hkLoop adj nLeft fuel fuel
        { pairU := List.replicate nLeft (-1), pairV := List.replicate nRight (-1),
          dist := List.replicate nLeft (Dval.int 0) } 0).map
      fun r => Except.ok (r.1, r.2.pairU, r.2.pairV)

/-- Python `is_valid(word, letter_sets)` with explicit fuel: `some b` when the
Python call returns the boolean `b`; `none` if the engine would not return
normally (fuel exhaustion, or a propagating `ValueError` — both shown
unreachable below). -/
def isValidF (fuel : Nat) (word : List Char) (letterSets : List (List Char)) : Option Bool :=
  match build word letterSets with
  | none => some false
  | some adj =>
    match hopcroftKarp adj letterSets.length letterSets.length fuel with
    | some (Except.ok (m, _, _)) => some (decide (m = letterSets.length))
    | _ => none

/-- The canonical fuel budget, proved sufficient below. -/
def hkFuel (word : List Char) : Nat := 2 * word.length + 3

/-- Python `is_valid(word, letter_sets)` at the canonical fuel budget. -/
def isValid (word : List Char) (letterSets : List (List Char)) : Bool :=
  (isValidF (hkFuel word) word letterSets).getD false

/-! ### Basic access and counting lemmas -/

theorem pget_eq (l : List Int) (i : Nat) : pget l i = (l.get? i).getD (-1) := rfl

theorem dget_eq (l : List Dval) (i : Nat) : dget l i = (l.get? i).getD (Dval.int 0) := rfl

theorem pget_get (l : List Int) (i : Nat) (h : i < l.length) : pget l i = l.get ⟨i, h⟩ := by
  rw [pget_eq, List.get?_eq_get h]; rfl

theorem dget_get (l : List Dval) (i : Nat) (h : i < l.length) : dget l i = l.get ⟨i, h⟩ := by
  rw [dget_eq, List.get?_eq_get h]; rfl

theorem pget_set_self (l : List Int) (i : Nat) (x : Int) (h : i < l.length) :
    pget (l.set i x) i = x := by
  rw [pget_eq, List.get?_set_eq_of_lt x h]; rfl

theorem pget_set_ne (l : List Int) (i j : Nat) (x : Int) (h : i ≠ j) :
    pget (l.set i x) j = pget l j := by
  rw [pget_eq, pget_eq, List.get?_set_ne x l h]

theorem dget_set_self (l : List Dval) (i : Nat) (x : Dval) (h : i < l.length) :
    dget (l.set i x) i = x := by
  rw [dget_eq, List.get?_set_eq_of_lt x h]; rfl

theorem dget_set_ne (l : List Dval) (i j : Nat) (x : Dval) (h : i ≠ j) :
    dget (l.set i x) j = dget l j := by
  rw [dget_eq, dget_eq, List.get?_set_ne x l h]

theorem pget_cons_zero (a : Int) (t : List Int) : pget (a :: t) 0 = a := rfl

theorem pget_cons_succ (a : Int) (t : List Int) (n : Nat) : pget (a :: t) (n + 1) = pget t n := rfl

theorem dget_cons_zero (a : Dval) (t : List Dval) : dget (a :: t) 0 = a := rfl

theorem dget_cons_succ (a : Dval) (t : List Dval) (n : Nat) :
    dget (a :: t) (n + 1) = dget t n := rfl

/-- Number of matched left (or right) vertices: entries of `pairU` (resp.
`pairV`) different from the `-1` sentinel. -/
def matchedCount (l : List Int) : Nat := l.countP (fun x => decide (x ≠ -1))

/-- Number of `dist` entries equal to the `INF` sentinel (used as the
termination measure of the `_bfs` queue loop). -/
def cINF (dist : List Dval) : Nat := dist.countP (fun e => decide (e = Dval.int INF))

theorem matchedCount_cons (a : Int) (t : List Int) :
    matchedCount (a :: t) = matchedCount t + if a ≠ -1 then 1 else 0 := by
  simp [matchedCount, List.countP_cons]

theorem cINF_cons (a : Dval) (t : List Dval) :
    cINF (a :: t) = cINF t + if a = Dval.int INF then 1 else 0 := by
  simp [cINF, List.countP_cons]

theorem matchedCount_le_length (l : List Int) : matchedCount l ≤ l.length :=
  List.countP_le_length _

theorem matchedCount_set_new (l : List Int) (i : Nat) (x : Int) (h : i < l.length)
    (hold : pget l i = -1) (hx : x ≠ -1) :
    matchedCount (l.set i x) = matchedCount l + 1 := by
  induction l generalizing i with
  | nil => simp at h
  | cons a t ih =>
    cases i with
    | zero =>
      rw [pget_cons_zero] at hold
      subst hold
      simp [List.set, matchedCount_cons, hx]
    | succ n =>
      rw [pget_cons_succ] at hold
      have hn : n < t.length := by simpa using h
      simp only [List.set, matchedCount_cons, ih n hn hold]
      omega

theorem matchedCount_set_keep (l : List Int) (i : Nat) (x : Int) (h : i < l.length)
    (hold : pget l i ≠ -1) (hx : x ≠ -1) :
    matchedCount (l.set i x) = matchedCount l := by
  induction l generalizing i with
  | nil => simp at h
  | cons a t ih =>
    cases i with
    | zero =>
      rw [pget_cons_zero] at hold
      simp [List.set, matchedCount_cons, hx, hold]
    | succ n =>
      rw [pget_cons_succ] at hold
      have hn : n < t.length := by simpa using h
      simp only [List.set, matchedCount_cons, ih n hn hold]

theorem cINF_set_consume (l : List Dval) (i : Nat) (x : Dval) (h : i < l.length)
    (hold : dget l i = Dval.int INF) (hx : x ≠ Dval.int INF) :
    cINF (l.set i x) + 1 = cINF l := by
  induction l generalizing i with
  | nil => simp at h
  | cons a t ih =>
    cases i with
    | zero =>
      rw [dget_cons_zero] at hold
      subst hold
      simp [List.set, cINF_cons, hx]
    | succ n =>
      rw [dget_cons_succ] at hold
      have hn : n < t.length := by simpa using h
      simp only [List.set, cINF_cons]
      have := ih n hn hold
      omega

theorem matchedCount_replicate_neg (n : Nat) : matchedCount (List.replicate n (-1)) = 0 := by
  unfold matchedCount
  rw [List.countP_eq_zero]
  intro a ha
  simp [List.eq_of_mem_replicate ha]

theorem matchedCount_lt_exists (l : List Int) (h : matchedCount l < l.length) :
    ∃ u, u < l.length ∧ pget l u = -1 := by
  by_contra hc
  push_neg at hc
  have : matchedCount l = l.length := by
    unfold matchedCount
    rw [List.countP_eq_length]
    intro a ha
    rcases List.mem_iff_get.mp ha with ⟨i, rfl⟩
    have := hc i.1 i.2
    rw [pget_get l i.1 i.2] at this
    simpa using this
  omega

theorem matchedCount_eq_length_all (l : List Int) (h : matchedCount l = l.length)
    (u : Nat) (hu : u < l.length) : pget l u ≠ -1 := by
  unfold matchedCount at h
  rw [List.countP_eq_length] at h
  have := h (l.get ⟨u, hu⟩) (l.get_mem _ _)
  rw [pget_get l u hu]
  simpa using this

/-! ### Graph builder characterization -/

theorem mem_posEdges (ch : Char) (sets : List (List Char)) (j : Nat) :
    j ∈ posEdges ch sets ↔ ∃ s, sets.get? j = some s ∧ ch ∈ s := by
  unfold posEdges
  constructor
  · intro hj
    rcases List.mem_map.mp hj with ⟨⟨j1, s⟩, hmem, h1⟩
    rcases List.mem_filter.mp hmem with ⟨henum, hch⟩
    cases h1
    exact ⟨s, List.mk_mem_enum_iff_get?.mp henum, of_decide_eq_true hch⟩
  · rintro ⟨s, hget, hch⟩
    exact List.mem_map.mpr
      ⟨(j, s), List.mem_filter.mpr ⟨List.mk_mem_enum_iff_get?.mpr hget, decide_eq_true hch⟩, rfl⟩

theorem posEdges_sub (ch : Char) (sets : List (List Char)) :
    ∀ j ∈ posEdges ch sets, j < sets.length := by
  intro j hj
  rcases (mem_posEdges ch sets j).mp hj with ⟨s, hget, _⟩
  exact List.get?_eq_some.mp hget |>.1 |> fun h => by simpa using h

theorem buildAux_some (sets : List (List Char)) :
    ∀ word adj, buildAux sets word = some adj →
      adj = word.map (fun ch => posEdges ch sets) := by
  intro word
  induction word with
  | nil => intro adj h; simp [buildAux] at h; simp [← h]
  | cons ch rest ih =>
    intro adj h
    unfold buildAux at h
    by_cases he : posEdges ch sets = []
    · simp [he] at h
    · simp only [he, if_neg, ite_false] at h
      rcases Option.map_eq_some'.mp h with ⟨adj', hrest, rfl⟩
      simp [ih adj' hrest]

theorem buildAux_none_iff (sets : List (List Char)) (word : List Char) :
    buildAux sets word = none ↔ ∃ ch ∈ word, posEdges ch sets = [] := by
  induction word with
  | nil => simp [buildAux]
  | cons ch rest ih =>
    unfold buildAux
    by_cases he : posEdges ch sets = []
    · simp [he]
    · simp [he, ih]

theorem build_some_length (word : List Char) (sets : List (List Char))
    (adj : List (List Nat)) (h : build word sets = some adj) :
    word.length = sets.length ∧ adj = word.map (fun ch => posEdges ch sets) := by
  unfold build at h
  by_cases hl : word.length ≠ sets.length
  · simp [hl] at h
  · push_neg at hl
    refine ⟨hl, ?_⟩
    rw [if_neg (by omega)] at h
    exact buildAux_some sets word adj h

/-! ### Claims C2, C3, C4 -/

/-- C2: for every word and packet list with `len(word) != len(letter_sets)`,
`is_valid` returns `False`, and the matching engine is never invoked: the
builder short-circuits (`build` is `none`) before any graph is built, for
every fuel budget. -/
theorem isValid_length_mismatch (word : List Char) (letterSets : List (List Char))
    (h : word.length ≠ letterSets.length) :
    build word letterSets = none ∧ isValid word letterSets = false ∧
      ∀ fuel, isValidF fuel word letterSets = some false := by
  have hb : build word letterSets = none := by unfold build; simp [h]
  have hf : ∀ fuel, isValidF fuel word letterSets = some false := by
    intro fuel; unfold isValidF; rw [hb]
  exact ⟨hb, by unfold isValid; rw [hf]; rfl, hf⟩

/-- Witness for C2 at spec scenario 4: `word = "dogs"`,
`packets = [{"d"}, {"o"}, {"g"}]`. -/
theorem isValid_length_mismatch_w :
    build ['d', 'o', 'g', 's'] [['d'], ['o'], ['g']] = none ∧
      isValid ['d', 'o', 'g', 's'] [['d'], ['o'], ['g']] = false ∧
      ∀ fuel, isValidF fuel ['d', 'o', 'g', 's'] [['d'], ['o'], ['g']] = some false :=
  isValid_length_mismatch _ _ (by decide)

/-- C3: for a word and packet list of equal length, if some position's
character belongs to no packet, `is_valid` returns `False`, with the builder
returning early (`build` is `none`, so the matching engine never runs). -/
theorem isValid_no_packet_for_position (word : List Char) (sets : List (List Char))
    (hlen : word.length = sets.length) (i : Fin word.length)
    (hno : ∀ j : Fin sets.length, word.get i ∉ sets.get j) :
    build word sets = none ∧ isValid word sets = false ∧
      ∀ fuel, isValidF fuel word sets = some false := by
  have hempty : posEdges (word.get i) sets = [] := by
    rw [List.eq_nil_iff_forall_not_mem]
    intro j hj
    rcases (mem_posEdges _ _ j).mp hj with ⟨s, hget, hch⟩
    rcases List.get?_eq_some.mp hget with ⟨hlt, hgeteq⟩
    exact hno ⟨j, hlt⟩ (hgeteq ▸ hch)
  have hb : build word sets = none := by
    unfold build
    rw [if_neg (by omega)]
    exact (buildAux_none_iff sets word).mpr ⟨word.get i, word.get_mem i.1 i.2, hempty⟩
  have hf : ∀ fuel, isValidF fuel word sets = some false := by
    intro fuel; unfold isValidF; rw [hb]
  exact ⟨hb, by unfold isValid; rw [hf]; rfl, hf⟩

/-- Witness for C3 at spec scenario 5: `word = "xyz"`,
`packets = [{"a"}, {"b"}, {"c"}]` (position 0 has no eligible packet). -/
theorem isValid_no_packet_for_position_w :
    build ['x', 'y', 'z'] [['a'], ['b'], ['c']] = none ∧
      isValid ['x', 'y', 'z'] [['a'], ['b'], ['c']] = false ∧
      ∀ fuel, isValidF fuel ['x', 'y', 'z'] [['a'], ['b'], ['c']] = some false :=
  isValid_no_packet_for_position _ _ (by decide) ⟨0, by decide⟩ (by decide)

/-- C4: `_hopcroft_karp` signals the `ValueError` (a hard failure, distinct
from every normal `(matching, pairU, pairV)` return) exactly when
`len(adj) != n_left`; in particular a contract violation is never turned into
an `Except.ok` verdict of any matching size. -/
theorem hopcroftKarp_error_iff (adj : List (List Nat)) (nLeft nRight fuel : Nat) :
    hopcroftKarp adj nLeft nRight fuel
        = some (Except.error "adj must have length n_left")
      ↔ adj.length ≠ nLeft := by
  unfold hopcroftKarp
  by_cases h : adj.length ≠ nLeft
  · simp [h]
  · rw [if_neg h]
    constructor
    · intro hc
      rcases Option.map_eq_some'.mp hc with ⟨r, _, habs⟩
      simp at habs
    · intro hc
      exact (h hc).elim

/-! ### Matching-state invariants -/

/-- The mutual-recording invariant of the spec: whenever `pairU[u]` records a
right vertex, that vertex records `u` back, and symmetrically.  Together with
the range invariants of `PairsWF` this says `pairU[u] = v` holds exactly when
`pairV[v] = u`, unless both ends are `-1`. -/
def Consistent (pairU pairV : List Int) : Prop :=
  (∀ u, u < pairU.length → pget pairU u ≠ -1 →
    pget pairV (pget pairU u).toNat = (u : Int)) ∧
  (∀ v, v < pairV.length → pget pairV v ≠ -1 →
    pget pairU (pget pairV v).toNat = (v : Int))

instance (pairU pairV : List Int) : Decidable (Consistent pairU pairV) := by
  unfold Consistent; infer_instance

/-- Well-formedness of the matching arrays relative to the graph: lengths,
entry ranges, mutual recording, and every recorded edge being present in the
adjacency structure. -/
structure PairsWF (adj : List (List Nat)) (nLeft nRight : Nat) (pairU pairV : List Int) :
    Prop where
  lenU : pairU.length = nLeft
  lenV : pairV.length = nRight
  uRange : ∀ u, u < nLeft → pget pairU u = -1 ∨
    (0 ≤ pget pairU u ∧ pget pairU u < (nRight : Int))
  vRange : ∀ v, v < nRight → pget pairV v = -1 ∨
    (0 ≤ pget pairV v ∧ pget pairV v < (nLeft : Int))
  mutual_rec : Consistent pairU pairV
  edge : ∀ u, u < nLeft → pget pairU u ≠ -1 → (pget pairU u).toNat ∈ aget adj u

/-- Validity of the adjacency structure: every stored edge is a genuine
right-vertex index. -/
def AdjWF (adj : List (List Nat)) (nRight : Nat) : Prop :=
  ∀ l ∈ adj, ∀ v ∈ l, v < nRight

/-- Well-formedness of a `dist` array during the augmenting phase: every
in-range entry is the float infinity, or an integer that is a genuine BFS
layer (at most `nLeft`) or the `INF` sentinel. -/
def DistWF (nLeft : Nat) (dist : List Dval) : Prop :=
  dist.length = nLeft ∧
  ∀ i, i < nLeft → dget dist i = Dval.finf ∨
    ∃ k, dget dist i = Dval.int k ∧ (k ≤ nLeft ∨ k = INF)

/-- Evolution relation of `dist` during an augmenting phase: entries only ever
change to the float infinity (written by failed `_dfs` calls). -/
def DistEvol (d1 d2 : List Dval) : Prop :=
  d1.length = d2.length ∧
  ∀ i, i < d1.length → dget d2 i = dget d1 i ∨ dget d2 i = Dval.finf

theorem dget_out (l : List Dval) (i : Nat) (h : l.length ≤ i) : dget l i = Dval.int 0 := by
  rw [dget_eq, List.get?_len_le h]; rfl

theorem distEvol_refl (d : List Dval) : DistEvol d d :=
  ⟨rfl, fun i _ => Or.inl rfl⟩

theorem distEvol_trans {d1 d2 d3 : List Dval} (h12 : DistEvol d1 d2) (h23 : DistEvol d2 d3) :
    DistEvol d1 d3 := by
  refine ⟨h12.1.trans h23.1, fun i hi => ?_⟩
  rcases h23.2 i (h12.1 ▸ hi) with h | h
  · rw [h]; exact h12.2 i hi
  · exact Or.inr h

theorem DistEvol.int_back {d1 d2 : List Dval} (h : DistEvol d1 d2) {i k : Nat}
    (hk : dget d2 i = Dval.int k) : dget d1 i = Dval.int k := by
  by_cases hi : i < d1.length
  · rcases h.2 i hi with he | he
    · rw [← he, hk]
    · rw [he] at hk; exact absurd hk (by simp)
  · push_neg at hi
    rw [dget_out d2 i (h.1 ▸ hi)] at hk
    rw [dget_out d1 i hi, hk]

theorem distEvol_set_finf (d : List Dval) (x : Nat) (hx : x < d.length) :
    DistEvol d (d.set x Dval.finf) := by
  refine ⟨(List.length_set d x Dval.finf).symm, fun i hi => ?_⟩
  by_cases hix : x = i
  · subst hix
    exact Or.inr (dget_set_self d x Dval.finf hx)
  · exact Or.inl (dget_set_ne d x i Dval.finf hix)

theorem DistWF.evol {nLeft : Nat} {d1 d2 : List Dval} (h : DistWF nLeft d1)
    (hev : DistEvol d1 d2) : DistWF nLeft d2 := by
  refine ⟨hev.1 ▸ h.1, fun i hi => ?_⟩
  rcases hev.2 i (h.1.symm ▸ hi) with he | he
  · rw [he]; exact h.2 i hi
  · exact Or.inl he

/-! ### Layered augmenting paths -/

/-- A layered augmenting path for the current matching, rooted at left vertex
`u` sitting at BFS layer `d`: it alternates adjacency edges and matched edges,
each left vertex on it sits exactly one layer deeper than the previous one,
and it ends with an edge into an unmatched right vertex.  This is precisely
the kind of path the layered `_dfs` can traverse and flip. -/
inductive AugPath (adj : List (List Nat)) (pairV : List Int) (dist : List Dval) :
    Nat → Nat → List (Nat × Nat) → Prop
  | last {d u v} : v ∈ aget adj u → pget pairV v = -1 → dget dist u = Dval.int d →
      AugPath adj pairV dist d u [(u, v)]
  | cons {d u v : Nat} {u' : Nat} {p : List (Nat × Nat)} : v ∈ aget adj u →
      pget pairV v = Int.ofNat u' →
      dget dist u = Dval.int d → AugPath adj pairV dist (d + 1) u' p →
      AugPath adj pairV dist d u ((u, v) :: p)

theorem AugPath.dist_eq {adj pairV dist d u p} (h : AugPath adj pairV dist d u p) :
    dget dist u = Dval.int d := by
  cases h with
  | last _ _ hd => exact hd
  | cons _ _ hd _ => exact hd

theorem AugPath.head_shape {adj pairV dist d u p} (h : AugPath adj pairV dist d u p) :
    ∃ v rest, p = (u, v) :: rest ∧ v ∈ aget adj u := by
  cases h with
  | last hv _ _ => exact ⟨_, _, rfl, hv⟩
  | cons hv _ _ _ => exact ⟨_, _, rfl, hv⟩

theorem AugPath.vertex_layer {adj pairV dist d u p} (h : AugPath adj pairV dist d u p) :
    ∀ q ∈ p, ∃ k, d ≤ k ∧ dget dist q.1 = Dval.int k := by
  induction h with
  | last hv hm hd =>
    intro q hq
    rw [List.mem_singleton] at hq
    subst hq
    exact ⟨_, le_refl _, hd⟩
  | cons hv hm hd _ ih =>
    intro q hq
    rcases List.mem_cons.mp hq with rfl | hq
    · exact ⟨_, le_refl _, hd⟩
    · rcases ih q hq with ⟨k, hk, hdk⟩
      exact ⟨k, by omega, hdk⟩

theorem AugPath.suffix {adj pairV dist d u p} (h : AugPath adj pairV dist d u p) :
    ∀ q ∈ p, ∃ dq pq, AugPath adj pairV dist dq q.1 pq := by
  induction h with
  | last hv hm hd =>
    intro q hq
    rw [List.mem_singleton] at hq
    subst hq
    exact ⟨_, _, AugPath.last hv hm hd⟩
  | cons hv hm hd hp ih =>
    intro q hq
    rcases List.mem_cons.mp hq with rfl | hq
    · exact ⟨_, _, AugPath.cons hv hm hd hp⟩
    · exact ih q hq

theorem AugPath.back {adj pairV dist1 dist2 d u p} (hev : DistEvol dist1 dist2)
    (h : AugPath adj pairV dist2 d u p) : AugPath adj pairV dist1 d u p := by
  induction h with
  | last hv hm hd => exact AugPath.last hv hm (hev.int_back hd)
  | cons hv hm hd _ ih => exact AugPath.cons hv hm (hev.int_back hd) ih

theorem AugPath.set_finf {adj pairV dist d u p} (x : Nat)
    (h : AugPath adj pairV dist d u p) (hx : ∀ q ∈ p, q.1 ≠ x) :
    AugPath adj pairV (dist.set x Dval.finf) d u p := by
  induction h with
  | last hv hm hd =>
    refine AugPath.last hv hm ?_
    rw [dget_set_ne dist x _ Dval.finf (fun he => (hx _ (List.mem_singleton_self _)) he.symm)]
    exact hd
  | cons hv hm hd _ ih =>
    refine AugPath.cons hv hm ?_ (ih fun q hq => hx q (List.mem_cons_of_mem _ hq))
    rw [dget_set_ne dist x _ Dval.finf (fun he => (hx _ (List.mem_cons_self _ _)) he.symm)]
    exact hd

/-- Flip `pairU` along an augmenting path, innermost `_dfs` frame first,
exactly as the unwinding assignments `pairU[u] = v` do. -/
def flipU (pairU : List Int) (p : List (Nat × Nat)) : List Int :=
  p.foldr (fun q acc => acc.set q.1 (Int.ofNat q.2)) pairU

/-- Flip `pairV` along an augmenting path, innermost `_dfs` frame first,
exactly as the unwinding assignments `pairV[v] = u` do. -/
def flipV (pairV : List Int) (p : List (Nat × Nat)) : List Int :=
  p.foldr (fun q acc => acc.set q.2 (Int.ofNat q.1)) pairV

theorem flipU_cons (pairU : List Int) (q : Nat × Nat) (p : List (Nat × Nat)) :
    flipU pairU (q :: p) = (flipU pairU p).set q.1 (Int.ofNat q.2) := rfl

theorem flipV_cons (pairV : List Int) (q : Nat × Nat) (p : List (Nat × Nat)) :
    flipV pairV (q :: p) = (flipV pairV p).set q.2 (Int.ofNat q.1) := rfl

/-! ### Path flip lemmas -/

theorem aget_eq (adj : List (List Nat)) (u : Nat) : aget adj u = (adj.get? u).getD [] := rfl

theorem aget_sub {adj : List (List Nat)} {nRight : Nat} (h : AdjWF adj nRight) (u : Nat) :
    ∀ v ∈ aget adj u, v < nRight := by
  intro v hv
  by_cases hu : u < adj.length
  · rw [aget_eq, List.get?_eq_get hu] at hv
    exact h _ (List.get_mem adj u hu) v hv
  · rw [aget_eq, List.get?_len_le (le_of_not_lt hu)] at hv
    simp at hv

theorem flipU_length (pairU : List Int) (p : List (Nat × Nat)) :
    (flipU pairU p).length = pairU.length := by
  induction p with
  | nil => rfl
  | cons q p ih => rw [flipU_cons, List.length_set, ih]

theorem flipV_length (pairV : List Int) (p : List (Nat × Nat)) :
    (flipV pairV p).length = pairV.length := by
  induction p with
  | nil => rfl
  | cons q p ih => rw [flipV_cons, List.length_set, ih]

theorem flipU_untouched (pairU : List Int) (p : List (Nat × Nat)) (x : Nat)
    (hx : ∀ q ∈ p, q.1 ≠ x) : pget (flipU pairU p) x = pget pairU x := by
  induction p with
  | nil => rfl
  | cons q p ih =>
    rw [flipU_cons, pget_set_ne _ _ _ _ (hx q (List.mem_cons_self q p)),
      ih fun r hr => hx r (List.mem_cons_of_mem q hr)]

theorem flipV_untouched (pairV : List Int) (p : List (Nat × Nat)) (y : Nat)
    (hy : ∀ q ∈ p, q.2 ≠ y) : pget (flipV pairV p) y = pget pairV y := by
  induction p with
  | nil => rfl
  | cons q p ih =>
    rw [flipV_cons, pget_set_ne _ _ _ _ (hy q (List.mem_cons_self q p)),
      ih fun r hr => hy r (List.mem_cons_of_mem q hr)]

theorem AugPath.left_ne_of_layer {adj pairV dist du u' p} (h : AugPath adj pairV dist du u' p)
    {x d : Nat} (hdx : dget dist x = Dval.int d) (hlt : d < du) : ∀ q ∈ p, q.1 ≠ x := by
  intro q hq he
  rcases h.vertex_layer q hq with ⟨k, hk, hdk⟩
  rw [he, hdx] at hdk
  have := Dval.int.inj hdk
  omega

theorem AugPath.right_link {adj pairV dist d u p} (h : AugPath adj pairV dist d u p) :
    ∀ q ∈ p, pget pairV q.2 = -1 ∨
      ∃ x k, pget pairV q.2 = Int.ofNat x ∧ x ∈ p.map Prod.fst ∧
        dget dist x = Dval.int k ∧ d + 1 ≤ k := by
  induction h with
  | last hv hm hd =>
    intro q hq
    rw [List.mem_singleton] at hq
    subst hq
    exact Or.inl hm
  | @cons d1 u1 v1 u1p p1 hv hm hd hp ih =>
    intro q hq
    rcases List.mem_cons.mp hq with rfl | hq
    · refine Or.inr ⟨u1p, d1 + 1, hm, ?_, hp.dist_eq, le_refl _⟩
      rcases hp.head_shape with ⟨v2, rest2, hsh, _⟩
      rw [hsh]
      exact List.mem_map.mpr ⟨(u1p, v2), List.mem_cons_of_mem _ (List.mem_cons_self _ _), rfl⟩
    · rcases ih q hq with h1 | ⟨x, k, h1, hxm, h2, h3⟩
      · exact Or.inl h1
      · refine Or.inr ⟨x, k, h1, ?_, h2, by omega⟩
        rcases List.mem_map.mp hxm with ⟨r, hr, hrx⟩
        exact List.mem_map.mpr ⟨r, List.mem_cons_of_mem _ hr, hrx⟩

theorem AugPath.right_ne_of {adj pairV dist d u' p} (h : AugPath adj pairV dist (d + 1) u' p)
    (v : Nat) (hm : pget pairV v = Int.ofNat u') : ∀ q ∈ p, q.2 ≠ v := by
  intro q hq he
  rcases h.right_link q hq with h1 | ⟨x, k, h1, _, h2, h3⟩
  · rw [he, hm, Int.ofNat_eq_natCast] at h1
    omega
  · rw [he, hm, Int.ofNat_eq_natCast, Int.ofNat_eq_natCast] at h1
    have hx : u' = x := by omega
    subst hx
    rw [h.dist_eq] at h2
    have := Dval.int.inj h2
    omega

theorem AugPath.next_lt {adj : List (List Nat)} {pairV : List Int} {nLeft nRight : Nat}
    {v u' : Nat} (hadj : AdjWF adj nRight)
    (hvr : ∀ w, w < nRight → pget pairV w = -1 ∨
      (0 ≤ pget pairV w ∧ pget pairV w < (nLeft : Int)))
    {u : Nat} (hv : v ∈ aget adj u) (hm : pget pairV v = Int.ofNat u') : u' < nLeft := by
  have hvR : v < nRight := aget_sub hadj u v hv
  rcases hvr v hvR with h1 | ⟨_, h2⟩
  · rw [hm, Int.ofNat_eq_natCast] at h1; omega
  · rw [hm, Int.ofNat_eq_natCast] at h2; omega

theorem AugPath.bounds {adj : List (List Nat)} {pairV : List Int} {dist : List Dval}
    {d u : Nat} {p : List (Nat × Nat)} {nLeft nRight : Nat}
    (hadj : AdjWF adj nRight)
    (hvr : ∀ w, w < nRight → pget pairV w = -1 ∨
      (0 ≤ pget pairV w ∧ pget pairV w < (nLeft : Int)))
    (h : AugPath adj pairV dist d u p) :
    u < nLeft → ∀ q ∈ p, q.1 < nLeft ∧ q.2 < nRight := by
  induction h with
  | last hv hm hd =>
    intro hu q hq
    rw [List.mem_singleton] at hq
    subst hq
    exact ⟨hu, aget_sub hadj _ _ hv⟩
  | cons hv hm hd hp ih =>
    intro hu q hq
    have hu' := AugPath.next_lt hadj hvr hv hm
    rcases List.mem_cons.mp hq with rfl | hq
    · exact ⟨hu, aget_sub hadj _ _ hv⟩
    · exact ih hu' q hq

theorem AugPath.lefts_nodup {adj pairV dist d u p} (h : AugPath adj pairV dist d u p) :
    (p.map Prod.fst).Nodup := by
  induction h with
  | last _ _ _ => simp
  | cons hv hm hd hp ih =>
    simp only [List.map_cons, List.nodup_cons]
    refine ⟨fun hmem => ?_, ih⟩
    rcases List.mem_map.mp hmem with ⟨q, hq, hq1⟩
    exact hp.left_ne_of_layer hd (by omega) q hq hq1

theorem AugPath.rights_nodup {adj pairV dist d u p} (h : AugPath adj pairV dist d u p) :
    (p.map Prod.snd).Nodup := by
  induction h with
  | last _ _ _ => simp
  | cons hv hm hd hp ih =>
    simp only [List.map_cons, List.nodup_cons]
    refine ⟨fun hmem => ?_, ih⟩
    rcases List.mem_map.mp hmem with ⟨q, hq, hq2⟩
    exact hp.right_ne_of _ hm q hq hq2

theorem AugPath.flip_mutual {adj pairV dist d u p} {pairU : List Int} {nLeft nRight : Nat}
    (hadj : AdjWF adj nRight) (hlenU : pairU.length = nLeft) (hlenV : pairV.length = nRight)
    (hvr : ∀ w, w < nRight → pget pairV w = -1 ∨
      (0 ≤ pget pairV w ∧ pget pairV w < (nLeft : Int)))
    (h : AugPath adj pairV dist d u p) :
    u < nLeft → ∀ q ∈ p,
      pget (flipU pairU p) q.1 = Int.ofNat q.2 ∧ pget (flipV pairV p) q.2 = Int.ofNat q.1 := by
  induction h with
  | last hv hm hd =>
    intro hu q hq
    rw [List.mem_singleton] at hq
    subst hq
    constructor
    · rw [flipU_cons]
      exact pget_set_self _ _ _ (by rw [flipU_length, hlenU]; exact hu)
    · rw [flipV_cons]
      exact pget_set_self _ _ _
        (by rw [flipV_length, hlenV]; exact aget_sub hadj _ _ hv)
  | cons hv hm hd hp ih =>
    intro hu q hq
    have hu' := AugPath.next_lt hadj hvr hv hm
    rcases List.mem_cons.mp hq with rfl | hq
    · constructor
      · rw [flipU_cons]
        exact pget_set_self _ _ _ (by rw [flipU_length, hlenU]; exact hu)
      · rw [flipV_cons]
        exact pget_set_self _ _ _
          (by rw [flipV_length, hlenV]; exact aget_sub hadj _ _ hv)
    · have h1 := (ih hu' q hq).1
      have h2 := (ih hu' q hq).2
      constructor
      · rw [flipU_cons, pget_set_ne _ _ _ _ fun he => hp.left_ne_of_layer hd (by omega) q hq he.symm]
        exact h1
      · rw [flipV_cons, pget_set_ne _ _ _ _ fun he => hp.right_ne_of _ hm q hq he.symm]
        exact h2

theorem AugPath.left_link {adj pairV dist d u p} {pairU : List Int} {nLeft nRight : Nat}
    (hadj : AdjWF adj nRight) (hlenV : pairV.length = nRight)
    (hvr : ∀ w, w < nRight → pget pairV w = -1 ∨
      (0 ≤ pget pairV w ∧ pget pairV w < (nLeft : Int)))
    (hcons : Consistent pairU pairV)
    (h : AugPath adj pairV dist d u p) :
    ∀ q ∈ p, q.1 = u ∨ ∃ y ∈ p.map Prod.snd, pget pairU q.1 = Int.ofNat y := by
  induction h with
  | last hv hm hd =>
    intro q hq
    rw [List.mem_singleton] at hq
    subst hq
    exact Or.inl rfl
  | @cons d1 u1 v1 u1p p1 hv hm hd hp ih =>
    intro q hq
    rcases List.mem_cons.mp hq with rfl | hq
    · exact Or.inl rfl
    · have hvR : v1 < nRight := aget_sub hadj _ _ hv
      rcases ih q hq with h1 | ⟨y, hy, h2⟩
      · refine Or.inr ⟨v1, List.mem_map.mpr ⟨(u1, v1), List.mem_cons_self _ _, rfl⟩, ?_⟩
        have hne : pget pairV v1 ≠ -1 := by
          rw [hm, Int.ofNat_eq_natCast]; omega
        have hmu := hcons.2 v1 (hlenV ▸ hvR) hne
        have htn : (Int.ofNat u1p).toNat = u1p := rfl
        rw [hm, htn] at hmu
        rw [h1, hmu, Int.ofNat_eq_natCast]
      · exact Or.inr ⟨y, List.mem_cons_of_mem _ hy, h2⟩

theorem toNat_ofNat_eq (n : Nat) : (Int.ofNat n).toNat = n := rfl

theorem AugPath.edge_mem {adj pairV dist d u p} (h : AugPath adj pairV dist d u p) :
    ∀ q ∈ p, q.2 ∈ aget adj q.1 := by
  induction h with
  | last hv hm hd =>
    intro q hq
    rw [List.mem_singleton] at hq
    subst hq
    exact hv
  | cons hv hm hd hp ih =>
    intro q hq
    rcases List.mem_cons.mp hq with rfl | hq
    · exact hv
    · exact ih q hq

theorem AugPath.flip_count {adj : List (List Nat)} {pairU pairV : List Int} {dist : List Dval}
    {d u : Nat} {p : List (Nat × Nat)} {nLeft nRight : Nat}
    (hadj : AdjWF adj nRight) (hlenU : pairU.length = nLeft) (hlenV : pairV.length = nRight)
    (hvr : ∀ w, w < nRight → pget pairV w = -1 ∨
      (0 ≤ pget pairV w ∧ pget pairV w < (nLeft : Int)))
    (hcons : Consistent pairU pairV)
    (h : AugPath adj pairV dist d u p) :
    u < nLeft → matchedCount (flipU pairU p) =
      matchedCount pairU + (if pget pairU u = -1 then 1 else 0) := by
  induction h with
  | @last d1 u1 v1 hv hm hd =>
    intro hu
    rw [flipU_cons]
    show matchedCount (pairU.set u1 (Int.ofNat v1)) = _
    by_cases hm1 : pget pairU u1 = -1
    · rw [if_pos hm1, matchedCount_set_new pairU u1 _ (hlenU ▸ hu) hm1
        (by rw [Int.ofNat_eq_natCast]; omega)]
    · rw [if_neg hm1, matchedCount_set_keep pairU u1 _ (hlenU ▸ hu) hm1
        (by rw [Int.ofNat_eq_natCast]; omega)]
      omega
  | @cons d1 u1 v1 u1p p1 hv hm hd hp ih =>
    intro hu
    have hu' := AugPath.next_lt hadj hvr hv hm
    have ihh := ih hu'
    have hvR : v1 < nRight := aget_sub hadj _ _ hv
    have hne : pget pairV v1 ≠ -1 := by rw [hm, Int.ofNat_eq_natCast]; omega
    have hmu := hcons.2 v1 (hlenV ▸ hvR) hne
    rw [hm, toNat_ofNat_eq] at hmu
    have hmatched : pget pairU u1p ≠ -1 := by rw [hmu]; omega
    rw [if_neg hmatched] at ihh
    rw [flipU_cons]
    have hunt : pget (flipU pairU p1) u1 = pget pairU u1 :=
      flipU_untouched pairU p1 u1 (fun q hq => hp.left_ne_of_layer hd (by omega) q hq)
    have hlt : u1 < (flipU pairU p1).length := by rw [flipU_length, hlenU]; exact hu
    by_cases hm1 : pget pairU u1 = -1
    · rw [if_pos hm1, matchedCount_set_new _ u1 _ hlt (by rw [hunt]; exact hm1)
        (by rw [Int.ofNat_eq_natCast]; omega), ihh]
    · rw [if_neg hm1, matchedCount_set_keep _ u1 _ hlt (by rw [hunt]; exact hm1)
        (by rw [Int.ofNat_eq_natCast]; omega), ihh]

theorem AugPath.flip_wf {adj : List (List Nat)} {pairU pairV : List Int} {dist : List Dval}
    {d u : Nat} {p : List (Nat × Nat)} {nLeft nRight : Nat}
    (hadj : AdjWF adj nRight) (hw : PairsWF adj nLeft nRight pairU pairV)
    (h : AugPath adj pairV dist d u p) (hu : u < nLeft) (hroot : pget pairU u = -1) :
    PairsWF adj nLeft nRight (flipU pairU p) (flipV pairV p) ∧
      matchedCount (flipU pairU p) = matchedCount pairU + 1 := by
  have hfm := h.flip_mutual hadj hw.lenU hw.lenV hw.vRange hu
  have hbd := h.bounds hadj hw.vRange hu
  constructor
  · constructor
    · rw [flipU_length, hw.lenU]
    · rw [flipV_length, hw.lenV]
    · intro x hx
      by_cases hmem : ∃ q ∈ p, q.1 = x
      · rcases hmem with ⟨q, hq, rfl⟩
        refine Or.inr ⟨?_, ?_⟩ <;> rw [(hfm q hq).1, Int.ofNat_eq_natCast]
        · omega
        · have := (hbd q hq).2; omega
      · push_neg at hmem
        rw [flipU_untouched pairU p x hmem]
        exact hw.uRange x hx
    · intro y hy
      by_cases hmem : ∃ q ∈ p, q.2 = y
      · rcases hmem with ⟨q, hq, rfl⟩
        refine Or.inr ⟨?_, ?_⟩ <;> rw [(hfm q hq).2, Int.ofNat_eq_natCast]
        · omega
        · have := (hbd q hq).1; omega
      · push_neg at hmem
        rw [flipV_untouched pairV p y hmem]
        exact hw.vRange y hy
    · constructor
      · intro x hx hne
        by_cases hmem : ∃ q ∈ p, q.1 = x
        · rcases hmem with ⟨q, hq, rfl⟩
          rw [(hfm q hq).1, toNat_ofNat_eq, (hfm q hq).2, Int.ofNat_eq_natCast]
        · push_neg at hmem
          rw [flipU_untouched pairU p x hmem] at hne ⊢
          have hold := hw.mutual_rec.1 x (flipU_length pairU p ▸ hx) hne
          set w := (pget pairU x).toNat with hwdef
          have hwmem : ∀ q ∈ p, q.2 ≠ w := by
            intro q hq he
            rcases h.right_link q hq with h1 | ⟨x2, k, h1, hx2m, _, _⟩
            · rw [he, hold] at h1
              omega
            · rw [he, hold, Int.ofNat_eq_natCast] at h1
              have : x = x2 := by omega
              subst this
              rcases List.mem_map.mp hx2m with ⟨r, hr, hrx⟩
              exact hmem r hr hrx
          rw [flipV_untouched pairV p w hwmem]
          exact hold
      · intro y hy hne
        by_cases hmem : ∃ q ∈ p, q.2 = y
        · rcases hmem with ⟨q, hq, rfl⟩
          rw [(hfm q hq).2, toNat_ofNat_eq, (hfm q hq).1, Int.ofNat_eq_natCast]
        · push_neg at hmem
          rw [flipV_untouched pairV p y hmem] at hne ⊢
          have hold := hw.mutual_rec.2 y (flipV_length pairV p ▸ hy) hne
          set z := (pget pairV y).toNat with hzdef
          have hzmem : ∀ q ∈ p, q.1 ≠ z := by
            intro q hq he
            rcases h.left_link hadj hw.lenV hw.vRange hw.mutual_rec q hq with h1 | ⟨y2, hy2m, h2⟩
            · rw [h1] at he
              rw [he, hold] at hroot
              omega
            · rw [he, hold, Int.ofNat_eq_natCast] at h2
              have : y = y2 := by omega
              subst this
              rcases List.mem_map.mp hy2m with ⟨r, hr, hrx⟩
              exact hmem r hr hrx
          rw [flipU_untouched pairU p z hzmem]
          exact hold
    · intro x hx hne
      by_cases hmem : ∃ q ∈ p, q.1 = x
      · rcases hmem with ⟨q, hq, rfl⟩
        rw [(hfm q hq).1, toNat_ofNat_eq]
        exact h.edge_mem q hq
      · push_neg at hmem
        rw [flipU_untouched pairU p x hmem] at hne ⊢
        exact hw.edge x hx hne
  · have := h.flip_count hadj hw.lenU hw.lenV hw.vRange hw.mutual_rec hu
    rw [if_pos hroot] at this
    exact this

/-! ### The `_dfs` master lemma -/

theorem dfsScanGo_nil (f : Nat → HKSt → Option (Bool × HKSt)) (u : Nat) (st : HKSt) :
    dfsScanGo f u [] st = some (false, { st with dist := st.dist.set u Dval.finf }) := rfl

theorem dfsScanGo_cons (f : Nat → HKSt → Option (Bool × HKSt)) (u v : Nat) (vs : List Nat)
    (st : HKSt) :
    dfsScanGo f u (v :: vs) st =
      (if pget st.pairV v = -1 then
        some (true, { st with pairU := st.pairU.set u (Int.ofNat v),
                              pairV := st.pairV.set v (Int.ofNat u) })
      else if dget st.dist (pget st.pairV v).toNat = Dval.succ (dget st.dist u) then
        match f (pget st.pairV v).toNat st with
        | none => none
        | some (true, st1) =>
          some (true, { st1 with pairU := st1.pairU.set u (Int.ofNat v),
                                 pairV := st1.pairV.set v (Int.ofNat u) })
        | some (false, st1) => dfsScanGo f u vs st1
      else dfsScanGo f u vs st) := rfl

/-- Contract of one `_dfs` call at a given fuel: sufficient fuel means no
fuel exhaustion; a `False` return is impossible when a layered augmenting path
from the argument exists; a `False` return leaves the matching untouched,
only writes `float("inf")` into `dist` (never below the caller's layer), and
preserves every layered augmenting path verbatim; a `True` return flips the
matching along some layered augmenting path rooted at the argument. -/
def DfsOk (adj : List (List Nat)) (nLeft nRight : Nat) (fuel : Nat)
    (f : Nat → HKSt → Option (Bool × HKSt)) : Prop :=
  ∀ st u d, PairsWF adj nLeft nRight st.pairU st.pairV → DistWF nLeft st.dist →
    u < nLeft → dget st.dist u = Dval.int d → d ≤ nLeft →
    ((nLeft + 2 ≤ fuel + d → f u st ≠ none) ∧
     (∀ p, AugPath adj st.pairV st.dist d u p → ∀ st1, f u st ≠ some (false, st1)) ∧
     (∀ st1, f u st = some (false, st1) →
       st1.pairU = st.pairU ∧ st1.pairV = st.pairV ∧ DistEvol st.dist st1.dist ∧
       (∀ i k, i ≠ u → dget st.dist i = Dval.int k → k ≤ d →
         dget st1.dist i = Dval.int k) ∧
       (∀ y dy py, AugPath adj st.pairV st.dist dy y py →
         AugPath adj st1.pairV st1.dist dy y py)) ∧
     (∀ st1, f u st = some (true, st1) →
       ∃ p, AugPath adj st.pairV st.dist d u p ∧
         st1.pairU = flipU st.pairU p ∧ st1.pairV = flipV st.pairV p ∧
         DistEvol st.dist st1.dist ∧
         (∀ i k, dget st.dist i = Dval.int k → k ≤ d → dget st1.dist i = Dval.int k)))

theorem dfsScanGo_ok (adj : List (List Nat)) (nLeft nRight fuel : Nat)
    (hadj : AdjWF adj nRight) (hbound : nLeft + 1 < INF)
    (f : Nat → HKSt → Option (Bool × HKSt)) (hf : DfsOk adj nLeft nRight fuel f)
    (u d : Nat) (hu : u < nLeft) (hdn : d ≤ nLeft) :
    ∀ vs st, PairsWF adj nLeft nRight st.pairU st.pairV → DistWF nLeft st.dist →
      dget st.dist u = Dval.int d →
      (∀ v ∈ vs, v ∈ aget adj u) →
      ((nLeft + 2 ≤ (fuel + 1) + d → dfsScanGo f u vs st ≠ none) ∧
       (∀ v rest, v ∈ vs → AugPath adj st.pairV st.dist d u ((u, v) :: rest) →
         ∀ st1, dfsScanGo f u vs st ≠ some (false, st1)) ∧
       (∀ st1, dfsScanGo f u vs st = some (false, st1) →
         st1.pairU = st.pairU ∧ st1.pairV = st.pairV ∧ DistEvol st.dist st1.dist ∧
         (∀ i k, i ≠ u → dget st.dist i = Dval.int k → k ≤ d →
           dget st1.dist i = Dval.int k) ∧
         (∀ y dy py, AugPath adj st.pairV st.dist dy y py → (∀ q ∈ py, q.1 ≠ u) →
           AugPath adj st1.pairV st1.dist dy y py)) ∧
       (∀ st1, dfsScanGo f u vs st = some (true, st1) →
         ∃ v rest, v ∈ vs ∧ AugPath adj st.pairV st.dist d u ((u, v) :: rest) ∧
           st1.pairU = flipU st.pairU ((u, v) :: rest) ∧
           st1.pairV = flipV st.pairV ((u, v) :: rest) ∧
           DistEvol st.dist st1.dist ∧
           (∀ i k, dget st.dist i = Dval.int k → k ≤ d →
             dget st1.dist i = Dval.int k))) := by
  intro vs
  induction vs with
  | nil =>
    intro st hw hdw hd hvs
    refine ⟨fun _ => by rw [dfsScanGo_nil]; exact Option.some_ne_none _,
      fun v rest hv => by simp at hv, ?_, ?_⟩
    · intro st1 h1
      rw [dfsScanGo_nil] at h1
      have h2 : { st with dist := st.dist.set u Dval.finf } = st1 :=
        congrArg Prod.snd (Option.some.inj h1)
      subst h2
      refine ⟨rfl, rfl, ?_, ?_, ?_⟩
      · exact distEvol_set_finf st.dist u (by rw [hdw.1]; exact hu)
      · intro i k hik hik2 _
        show dget (st.dist.set u Dval.finf) i = _
        rw [dget_set_ne st.dist u i Dval.finf (fun he => hik he.symm)]
        exact hik2
      · intro y dy py hpy havoid
        exact hpy.set_finf u havoid
    · intro st1 h1
      rw [dfsScanGo_nil] at h1
      have h2 := congrArg Prod.fst (Option.some.inj h1)
      simp at h2
  | cons v vs ihvs =>
    intro st hw hdw hd hvs
    have hvadj : v ∈ aget adj u := hvs v (List.mem_cons_self v vs)
    have hvs' : ∀ w ∈ vs, w ∈ aget adj u := fun w hw2 => hvs w (List.mem_cons_of_mem v hw2)
    by_cases hpu : pget st.pairV v = -1
    · -- immediate success: v is unmatched
      have hr : dfsScanGo f u (v :: vs) st =
          some (true, { st with pairU := st.pairU.set u (Int.ofNat v),
                                pairV := st.pairV.set v (Int.ofNat u) }) := by
        rw [dfsScanGo_cons, if_pos hpu]
      refine ⟨fun _ => by rw [hr]; exact Option.some_ne_none _, ?_, ?_, ?_⟩
      · intro v2 rest hv2 hpath st1
        rw [hr]
        intro hc
        have h2 := congrArg Prod.fst (Option.some.inj hc)
        simp at h2
      · intro st1 h1
        rw [hr] at h1
        have h2 := congrArg Prod.fst (Option.some.inj h1)
        simp at h2
      · intro st1 h1
        rw [hr] at h1
        have h2 := congrArg Prod.snd (Option.some.inj h1)
        subst h2
        refine ⟨v, [], List.mem_cons_self v vs, AugPath.last hvadj hpu hd, rfl, rfl,
          distEvol_refl st.dist, fun i k hik _ => hik⟩
    · -- v is matched to pu
      by_cases hg : dget st.dist (pget st.pairV v).toNat = Dval.succ (dget st.dist u)
      · -- layer guard holds: recursive call happens
        have hvR : v < nRight := aget_sub hadj u v hvadj
        rcases hw.vRange v hvR with hc1 | ⟨hge, hlt⟩
        · exact absurd hc1 hpu
        have hpuN : (pget st.pairV v).toNat < nLeft := by omega
        have hgi : dget st.dist (pget st.pairV v).toNat = Dval.int (d + 1) := by
          rw [hg, hd]; rfl
        have hd1n : d + 1 ≤ nLeft := by
          rcases (hdw.2 (pget st.pairV v).toNat hpuN) with hfi | ⟨k, hk1, hk2⟩
          · rw [hgi] at hfi; cases hfi
          · rw [hgi] at hk1
            have hdk := Dval.int.inj hk1
            rcases hk2 with hk2 | hk2
            · omega
            · unfold INF at hk2
              unfold INF at hbound
              omega
        have hofnat : Int.ofNat (pget st.pairV v).toNat = pget st.pairV v := by
          rw [Int.ofNat_eq_natCast, Int.toNat_of_nonneg hge]
        obtain ⟨fT, fD, fA, fB⟩ :=
          hf st (pget st.pairV v).toNat (d + 1) hw hdw hpuN hgi hd1n
        cases hrec : f (pget st.pairV v).toNat st with
        | none =>
          have hr : dfsScanGo f u (v :: vs) st = none := by
            rw [dfsScanGo_cons, if_neg hpu, if_pos hg, hrec]
          refine ⟨?_, ?_, ?_, ?_⟩
          · intro hb
            exact absurd hrec (fT (by omega))
          · intro v2 rest hv2 hpath st1
            rw [hr]
            exact fun hc => Option.noConfusion hc
          · intro st1 h1
            rw [hr] at h1
            exact Option.noConfusion h1
          · intro st1 h1
            rw [hr] at h1
            exact Option.noConfusion h1
        | some br =>
          rcases br with ⟨b, stR⟩
          cases b with
          | true =>
            have hr : dfsScanGo f u (v :: vs) st =
                some (true, { stR with pairU := stR.pairU.set u (Int.ofNat v),
                                       pairV := stR.pairV.set v (Int.ofNat u) }) := by
              rw [dfsScanGo_cons, if_neg hpu, if_pos hg, hrec]
            obtain ⟨p1, hp1, hU, hV, hev, hpres⟩ := fB stR hrec
            refine ⟨fun _ => by rw [hr]; exact Option.some_ne_none _, ?_, ?_, ?_⟩
            · intro v2 rest hv2 hpath st1
              rw [hr]
              intro hc
              have h2 := congrArg Prod.fst (Option.some.inj hc)
              simp at h2
            · intro st1 h1
              rw [hr] at h1
              have h2 := congrArg Prod.fst (Option.some.inj h1)
              simp at h2
            · intro st1 h1
              rw [hr] at h1
              have h2 := congrArg Prod.snd (Option.some.inj h1)
              subst h2
              refine ⟨v, p1, List.mem_cons_self v vs, ?_, ?_, ?_, hev,
                fun i k hik hik2 => hpres i k hik (by omega)⟩
              · refine AugPath.cons hvadj hofnat.symm hd hp1
              · show stR.pairU.set u (Int.ofNat v) = flipU st.pairU ((u, v) :: p1)
                rw [flipU_cons, hU]
              · show stR.pairV.set v (Int.ofNat u) = flipV st.pairV ((u, v) :: p1)
                rw [flipV_cons, hV]
          | false =>
            have hr : dfsScanGo f u (v :: vs) st = dfsScanGo f u vs stR := by
              rw [dfsScanGo_cons, if_neg hpu, if_pos hg, hrec]
            obtain ⟨hU, hV, hev, hlp, hpres⟩ := fA stR hrec
            have hwR : PairsWF adj nLeft nRight stR.pairU stR.pairV := by
              rw [hU, hV]; exact hw
            have hdwR : DistWF nLeft stR.dist := hdw.evol hev
            have hne_upu : u ≠ (pget st.pairV v).toNat := by
              intro he
              rw [← he, hd] at hgi
              have := Dval.int.inj hgi
              omega
            have hdR : dget stR.dist u = Dval.int d :=
              hlp u d hne_upu hd (by omega)
            obtain ⟨iT, iD, iA, iB⟩ := ihvs stR hwR hdwR hdR hvs'
            refine ⟨?_, ?_, ?_, ?_⟩
            · intro hb
              rw [hr]
              exact iT hb
            · intro v2 rest hv2 hpath st1
              rcases List.mem_cons.mp hv2 with he | hv2
              · -- the witness uses this very edge: the recursive call cannot
                -- have failed, by the inner no-fail-on-live contract
                rw [he] at hpath
                cases hpath with
                | last hv1 hm1 hd1 => exact absurd hm1 hpu
                | @cons _ _ _ u2 _ hv1 hm1 hd1 hp1 =>
                  have hu2 : u2 = (pget st.pairV v).toNat := by
                    rw [hm1, toNat_ofNat_eq]
                  rw [hu2] at hp1
                  exact absurd hrec (fD rest hp1 stR)
              · rw [hr]
                have hpathR := hpres u d ((u, v2) :: rest) hpath
                exact iD v2 rest hv2 hpathR st1
            · intro st1 h1
              rw [hr] at h1
              obtain ⟨jU, jV, jev, jlp, jpres⟩ := iA st1 h1
              refine ⟨jU.trans hU, jV.trans hV, distEvol_trans hev jev, ?_, ?_⟩
              · intro i k hik hik2 hik3
                have hne_ipu : i ≠ (pget st.pairV v).toNat := by
                  intro he
                  rw [he, hgi] at hik2
                  have := Dval.int.inj hik2
                  omega
                exact jlp i k hik (hlp i k hne_ipu hik2 (by omega)) hik3
              · intro y dy py hpy havoid
                exact jpres y dy py (hpres y dy py hpy) havoid
            · intro st1 h1
              rw [hr] at h1
              obtain ⟨v2, rest, hv2, hpath, jU, jV, jev, jlp⟩ := iB st1 h1
              refine ⟨v2, rest, List.mem_cons_of_mem v hv2, ?_, ?_, ?_, distEvol_trans hev jev, ?_⟩
              · have := hpath.back hev
                rw [hV] at this
                exact this
              · rw [jU, hU]
              · rw [jV, hV]
              · intro i k hik hik2
                have hne_ipu : i ≠ (pget st.pairV v).toNat := by
                  intro he
                  rw [he, hgi] at hik
                  have := Dval.int.inj hik
                  omega
                exact jlp i k (hlp i k hne_ipu hik (by omega)) hik2
      · -- layer guard fails: branch skipped
        have hr : dfsScanGo f u (v :: vs) st = dfsScanGo f u vs st := by
          rw [dfsScanGo_cons, if_neg hpu, if_neg hg]
        obtain ⟨iT, iD, iA, iB⟩ := ihvs st hw hdw hd hvs'
        refine ⟨fun hb => by rw [hr]; exact iT hb, ?_, ?_, ?_⟩
        · intro v2 rest hv2 hpath st1
          rcases List.mem_cons.mp hv2 with he | hv2
          · rw [he] at hpath
            cases hpath with
            | last hv1 hm1 hd1 => exact absurd hm1 hpu
            | @cons _ _ _ u2 _ hv1 hm1 hd1 hp1 =>
              have hu2 : u2 = (pget st.pairV v).toNat := by
                rw [hm1, toNat_ofNat_eq]
              have hde := hp1.dist_eq
              rw [hu2] at hde
              exact absurd (by rw [hd]; exact hde) hg
          · rw [hr]
            exact iD v2 rest hv2 hpath st1
        · intro st1 h1
          rw [hr] at h1
          exact iA st1 h1
        · intro st1 h1
          rw [hr] at h1
          obtain ⟨v2, rest, hv2, rest2⟩ := iB st1 h1
          exact ⟨v2, rest, List.mem_cons_of_mem v hv2, rest2⟩

theorem dfs_ok (adj : List (List Nat)) (nLeft nRight : Nat)
    (hadj : AdjWF adj nRight) (hbound : nLeft + 1 < INF) :
    ∀ fuel, DfsOk adj nLeft nRight fuel (dfs adj fuel) := by
  intro fuel
  induction fuel with
  | zero =>
    intro st u d hw hdw hu hd hdn
    refine ⟨?_, ?_, ?_, ?_⟩
    · intro hb
      exact absurd hb (by omega)
    · intro p hp st1 hc
      simp [dfs] at hc
    · intro st1 hc
      simp [dfs] at hc
    · intro st1 hc
      simp [dfs] at hc
  | succ fuel ih =>
    intro st u d hw hdw hu hd hdn
    obtain ⟨sT, sD, sA, sB⟩ := dfsScanGo_ok adj nLeft nRight fuel hadj hbound
      (dfs adj fuel) ih u d hu hdn (aget adj u) st hw hdw hd (fun v hv => hv)
    have hde : dfs adj (fuel + 1) u st = dfsScanGo (dfs adj fuel) u (aget adj u) st := rfl
    refine ⟨?_, ?_, ?_, ?_⟩
    · intro hb
      rw [hde]
      exact sT hb
    · intro p hp st1
      rw [hde]
      rcases hp.head_shape with ⟨v, rest, rfl, hv⟩
      exact sD v rest hv hp st1
    · intro st1 h1
      rw [hde] at h1
      obtain ⟨jU, jV, jev, jlp, jpres⟩ := sA st1 h1
      refine ⟨jU, jV, jev, jlp, ?_⟩
      intro y dy py hpy
      by_cases hmem : ∃ q ∈ py, q.1 = u
      · exfalso
        rcases hmem with ⟨q, hq, hq1⟩
        obtain ⟨dq, pq, hpq⟩ := hpy.suffix q hq
        rw [hq1] at hpq
        have hdq : dq = d := Dval.int.inj (hpq.dist_eq.symm.trans hd)
        rw [hdq] at hpq
        rcases hpq.head_shape with ⟨v, rest, rfl, hv⟩
        exact sD v rest hv hpq st1 h1
      · push_neg at hmem
        exact jpres y dy py hpy hmem
    · intro st1 h1
      rw [hde] at h1
      obtain ⟨v, rest, hv, hpath, rest3⟩ := sB st1 h1
      exact ⟨(u, v) :: rest, hpath, rest3⟩

/-! ### The `_bfs` machinery -/

/-- Update relation of `dist` during one `_bfs` run: entries only ever change
from the `INF` sentinel to a genuine layer value (at most `nLeft`). -/
def BfsUpd (nLeft : Nat) (d1 d2 : List Dval) : Prop :=
  d1.length = d2.length ∧
  ∀ i, i < d1.length → dget d2 i = dget d1 i ∨
    (dget d1 i = Dval.int INF ∧ ∃ k, dget d2 i = Dval.int k ∧ k ≤ nLeft)

theorem bfsUpd_refl (nLeft : Nat) (d : List Dval) : BfsUpd nLeft d d :=
  ⟨rfl, fun i _ => Or.inl rfl⟩

theorem bfsUpd_trans {nLeft : Nat} {d1 d2 d3 : List Dval} (h12 : BfsUpd nLeft d1 d2)
    (h23 : BfsUpd nLeft d2 d3) : BfsUpd nLeft d1 d3 := by
  refine ⟨h12.1.trans h23.1, fun i hi => ?_⟩
  rcases h23.2 i (h12.1 ▸ hi) with he | ⟨hinf, k, hk, hkn⟩
  · rcases h12.2 i hi with he2 | ⟨hinf2, k2, hk2, hk2n⟩
    · rw [he, he2]; exact Or.inl rfl
    · exact Or.inr ⟨hinf2, k2, he ▸ hk2, hk2n⟩
  · rcases h12.2 i hi with he2 | ⟨hinf2, k2, hk2, hk2n⟩
    · exact Or.inr ⟨he2 ▸ hinf, k, hk, hkn⟩
    · rw [hinf] at hk2
      have := Dval.int.inj hk2
      subst this
      exact Or.inr ⟨hinf2, k, hk, hkn⟩

theorem BfsUpd.not_inf_mono {nLeft : Nat} {d1 d2 : List Dval} (h : BfsUpd nLeft d1 d2)
    (hbound : nLeft + 1 < INF) {i : Nat} (hne : dget d1 i ≠ Dval.int INF) :
    dget d2 i ≠ Dval.int INF := by
  by_cases hi : i < d1.length
  · rcases h.2 i hi with he | ⟨hinf, _, _, _⟩
    · rw [he]; exact hne
    · exact absurd hinf hne
  · push_neg at hi
    rw [dget_out d2 i (h.1 ▸ hi)]
    intro hc
    have := Dval.int.inj hc
    unfold INF at this
    omega

theorem BfsUpd.small_mono {nLeft : Nat} {d1 d2 : List Dval} (h : BfsUpd nLeft d1 d2)
    (hbound : nLeft + 1 < INF) {i k : Nat} (hk : dget d1 i = Dval.int k) (hkn : k ≤ nLeft) :
    dget d2 i = Dval.int k := by
  by_cases hi : i < d1.length
  · rcases h.2 i hi with he | ⟨hinf, _, _, _⟩
    · rw [he]; exact hk
    · rw [hinf] at hk
      have := Dval.int.inj hk
      unfold INF at this hbound
      omega
  · push_neg at hi
    rw [dget_out d1 i hi] at hk
    rw [dget_out d2 i (h.1 ▸ hi), hk]

theorem cINF_pos (dist : List Dval) (w : Nat) (hw : w < dist.length)
    (hinf : dget dist w = Dval.int INF) : 1 ≤ cINF dist := by
  unfold cINF
  rw [Nat.succ_le, List.countP_pos]
  refine ⟨dist.get ⟨w, hw⟩, List.get_mem dist w hw, ?_⟩
  rw [← dget_get dist w hw, hinf]
  simp

/-- Layered reachability of a left vertex from some unmatched left root by an
alternating walk, exactly as the `_bfs` queue explores it.  The layer guards
record that each hop descends exactly one BFS layer. -/
inductive Rooted (adj : List (List Nat)) (pairU pairV : List Int) (nLeft : Nat) :
    List Dval → Nat → Prop
  | base {dist : List Dval} {u : Nat} : u < nLeft → pget pairU u = -1 →
      dget dist u = Dval.int 0 → Rooted adj pairU pairV nLeft dist u
  | step {dist : List Dval} {u v u' d : Nat} : Rooted adj pairU pairV nLeft dist u →
      v ∈ aget adj u → pget pairV v = Int.ofNat u' → u' < nLeft →
      dget dist u = Dval.int d → dget dist u' = Dval.int (d + 1) →
      Rooted adj pairU pairV nLeft dist u'

theorem Rooted.lt {adj pairU pairV nLeft dist u} (h : Rooted adj pairU pairV nLeft dist u) :
    u < nLeft := by
  cases h with
  | base h1 _ _ => exact h1
  | step _ _ _ h1 _ _ => exact h1

theorem Rooted.layer {adj pairU pairV nLeft dist u}
    (h : Rooted adj pairU pairV nLeft dist u) : ∃ k, dget dist u = Dval.int k := by
  cases h with
  | base _ _ h1 => exact ⟨0, h1⟩
  | step _ _ _ _ _ h1 => exact ⟨_, h1⟩

theorem Rooted.mono {adj pairU pairV nLeft dist1 dist2 u}
    (h : Rooted adj pairU pairV nLeft dist1 u) (hbound : nLeft + 1 < INF) :
    BfsUpd nLeft dist1 dist2 →
    (∀ i, i < nLeft → (∃ k, dget dist1 i = Dval.int k ∧ k ≤ nLeft) ∨
      dget dist1 i = Dval.int INF) →
    Rooted adj pairU pairV nLeft dist2 u := by
  induction h with
  | base h1 h2 h3 =>
    intro hupd hent
    exact Rooted.base h1 h2 (hupd.small_mono hbound h3 (by omega))
  | step hr hv hm hlt hd1 hd2 ih =>
    rename_i uu vv uu1 dd
    intro hupd hent
    have hdn : dd ≤ nLeft := by
      rcases hent _ hr.lt with ⟨k, hk, hkn⟩ | hk
      · rw [hd1] at hk
        have := Dval.int.inj hk
        omega
      · rw [hd1] at hk
        have h4 := Dval.int.inj hk
        rcases hent _ hlt with ⟨k2, hk2, hk2n⟩ | hk2
        · rw [hd2] at hk2
          have h5 := Dval.int.inj hk2
          unfold INF at h4 hbound
          omega
        · rw [hd2] at hk2
          have h5 := Dval.int.inj hk2
          unfold INF at h4 h5 hbound
          omega
    have hd1n : dd + 1 ≤ nLeft := by
      rcases hent _ hlt with ⟨k2, hk2, hk2n⟩ | hk2
      · rw [hd2] at hk2
        have := Dval.int.inj hk2
        omega
      · rw [hd2] at hk2
        have := Dval.int.inj hk2
        unfold INF at this hbound
        omega
    exact Rooted.step (ih hupd hent) hv hm hlt (hupd.small_mono hbound hd1 hdn)
      (hupd.small_mono hbound hd2 hd1n)

theorem Rooted.to_aug {adj pairU pairV nLeft dist u}
    (h : Rooted adj pairU pairV nLeft dist u) :
    ∀ d0 p, dget dist u = Dval.int d0 → AugPath adj pairV dist d0 u p →
      ∃ u0 p0, u0 < nLeft ∧ pget pairU u0 = -1 ∧ AugPath adj pairV dist 0 u0 p0 := by
  induction h with
  | base h1 h2 h3 =>
    intro d0 p hd0 hp
    rw [h3] at hd0
    have : 0 = d0 := Dval.int.inj hd0
    subst this
    exact ⟨_, p, h1, h2, hp⟩
  | step hr hv hm hlt hd1 hd2 ih =>
    rename_i uu vv uu1 dd
    intro d0 p hd0 hp
    rw [hd2] at hd0
    have hde : dd + 1 = d0 := Dval.int.inj hd0
    subst hde
    exact ih _ _ hd1 (AugPath.cons hv hm hd1 hp)

theorem bfsScan_nil (pairV : List Int) (u : Nat) (dist : List Dval) (q : List Nat)
    (found : Bool) : bfsScan pairV u [] dist q found = (dist, q, found) := rfl

theorem bfsScan_cons (pairV : List Int) (u v : Nat) (vs : List Nat) (dist : List Dval)
    (q : List Nat) (found : Bool) :
    bfsScan pairV u (v :: vs) dist q found =
      (if pget pairV v = -1 then bfsScan pairV u vs dist q true
       else if dget dist (pget pairV v).toNat = Dval.int INF then
         bfsScan pairV u vs (dist.set (pget pairV v).toNat (Dval.succ (dget dist u)))
           (q ++ [(pget pairV v).toNat]) found
       else bfsScan pairV u vs dist q found) := rfl

theorem bfsScan_ok (adj : List (List Nat)) (pairU pairV : List Int) (nLeft nRight : Nat)
    (hadj : AdjWF adj nRight) (hbound : nLeft + 1 < INF)
    (hwp : PairsWF adj nLeft nRight pairU pairV) (u du : Nat) :
    ∀ vs dist q found,
      dist.length = nLeft →
      (∀ i, i < nLeft → (∃ k, dget dist i = Dval.int k ∧ k ≤ nLeft) ∨
        dget dist i = Dval.int INF) →
      (∀ i, i < nLeft → pget pairU i = -1 → dget dist i = Dval.int 0) →
      dget dist u = Dval.int du →
      du + cINF dist ≤ nLeft →
      Rooted adj pairU pairV nLeft dist u →
      (∀ v ∈ vs, v ∈ aget adj u) →
      (∀ x ∈ q, x < nLeft ∧ Rooted adj pairU pairV nLeft dist x ∧
        ∃ k, dget dist x = Dval.int k ∧ k + cINF dist ≤ nLeft) →
      (found = true → ∃ x, x < nLeft ∧ Rooted adj pairU pairV nLeft dist x ∧
        ∃ w ∈ aget adj x, pget pairV w = -1) →
      ∀ dist1 q1 found1, bfsScan pairV u vs dist q found = (dist1, q1, found1) →
      (BfsUpd nLeft dist dist1 ∧ dist1.length = nLeft ∧
       (∀ i, i < nLeft → (∃ k, dget dist1 i = Dval.int k ∧ k ≤ nLeft) ∨
         dget dist1 i = Dval.int INF) ∧
       (∀ i, i < nLeft → pget pairU i = -1 → dget dist1 i = Dval.int 0) ∧
       q1.length + cINF dist1 ≤ q.length + cINF dist ∧
       (∀ x ∈ q1, x < nLeft ∧ Rooted adj pairU pairV nLeft dist1 x ∧
         ∃ k, dget dist1 x = Dval.int k ∧ k + cINF dist1 ≤ nLeft) ∧
       (found1 = true → ∃ x, x < nLeft ∧ Rooted adj pairU pairV nLeft dist1 x ∧
         ∃ w ∈ aget adj x, pget pairV w = -1) ∧
       (found = true → found1 = true) ∧
       (∀ v ∈ vs, (pget pairV v = -1 → found1 = true) ∧
         (pget pairV v ≠ -1 → dget dist1 (pget pairV v).toNat ≠ Dval.int INF)) ∧
       (∀ x, x < nLeft → dget dist x = Dval.int INF → dget dist1 x ≠ Dval.int INF →
         x ∈ q1) ∧
       (∀ x ∈ q, x ∈ q1)) := by
  intro vs
  induction vs with
  | nil =>
    intro dist q found hlen hent hroots hdu hmeas hru hvs hq hfound dist1 q1 found1 heq
    rw [bfsScan_nil] at heq
    cases heq
    refine ⟨bfsUpd_refl nLeft dist, hlen, hent, hroots, le_refl _, hq, hfound,
      fun h => h, fun v hv => absurd hv (List.not_mem_nil v), ?_, fun x hx => hx⟩
    intro x _ h1 h2
    exact absurd h1 h2
  | cons v vs ihvs =>
    intro dist q found hlen hent hroots hdu hmeas hru hvs hq hfound dist1 q1 found1 heq
    have hvadj : v ∈ aget adj u := hvs v (List.mem_cons_self v vs)
    have hvs' : ∀ w ∈ vs, w ∈ aget adj u := fun w hw2 => hvs w (List.mem_cons_of_mem v hw2)
    by_cases hpv : pget pairV v = -1
    · -- unmatched neighbor: found flips to true
      rw [bfsScan_cons, if_pos hpv] at heq
      have hfound2 : (true : Bool) = true → ∃ x, x < nLeft ∧
          Rooted adj pairU pairV nLeft dist x ∧ ∃ w ∈ aget adj x, pget pairV w = -1 :=
        fun _ => ⟨u, hru.lt, hru, v, hvadj, hpv⟩
      obtain ⟨c1, c2, c3, c4, c5, c6, c7, c8, c9, c10, c11⟩ :=
        ihvs dist q true hlen hent hroots hdu hmeas hru hvs' hq hfound2 dist1 q1 found1 heq
      refine ⟨c1, c2, c3, c4, c5, c6, c7, fun _ => c8 rfl, ?_, c10, c11⟩
      intro v2 hv2
      rcases List.mem_cons.mp hv2 with he | hv2
      · exact ⟨fun _ => c8 rfl, fun hne => absurd (he ▸ hpv) hne⟩
      · exact c9 v2 hv2
    · by_cases hINF : dget dist (pget pairV v).toNat = Dval.int INF
      · -- matched neighbor first reached: assign its layer and enqueue it
        rw [bfsScan_cons, if_neg hpv, if_pos hINF] at heq
        have hvR : v < nRight := aget_sub hadj u v hvadj
        rcases hwp.vRange v hvR with hc1 | ⟨hge, hlt⟩
        · exact absurd hc1 hpv
        have hwN : (pget pairV v).toNat < nLeft := by omega
        have hofnat : Int.ofNat (pget pairV v).toNat = pget pairV v := by
          rw [Int.ofNat_eq_natCast, Int.toNat_of_nonneg hge]
        have hwlen : (pget pairV v).toNat < dist.length := by rw [hlen]; exact hwN
        have hcpos : 1 ≤ cINF dist := cINF_pos dist _ hwlen hINF
        have hd1nb : du + 1 ≤ nLeft := by omega
        have hsucc : Dval.succ (dget dist u) = Dval.int (du + 1) := by rw [hdu]; rfl
        have hconsume : cINF (dist.set (pget pairV v).toNat (Dval.succ (dget dist u))) + 1
            = cINF dist := by
          refine cINF_set_consume dist _ _ hwlen hINF ?_
          rw [hsucc]
          intro hc
          have := Dval.int.inj hc
          unfold INF at this hbound
          omega
        have hne_uw : u ≠ (pget pairV v).toNat := by
          intro he
          rw [← he, hdu] at hINF
          have := Dval.int.inj hINF
          unfold INF at this hbound
          omega
        have hset_w : dget (dist.set (pget pairV v).toNat (Dval.succ (dget dist u)))
            (pget pairV v).toNat = Dval.int (du + 1) := by
          rw [dget_set_self dist _ _ hwlen, hsucc]
        have hset_ne : ∀ i, i ≠ (pget pairV v).toNat →
            dget (dist.set (pget pairV v).toNat (Dval.succ (dget dist u))) i = dget dist i :=
          fun i hi => dget_set_ne dist _ i _ (fun he => hi he.symm)
        have hupd1 : BfsUpd nLeft dist
            (dist.set (pget pairV v).toNat (Dval.succ (dget dist u))) := by
          refine ⟨(List.length_set dist _ _).symm, fun i hi => ?_⟩
          by_cases hiw : i = (pget pairV v).toNat
          · subst hiw
            exact Or.inr ⟨hINF, du + 1, hset_w, hd1nb⟩
          · exact Or.inl (hset_ne i hiw)
        have hent1 : ∀ i, i < nLeft →
            (∃ k, dget (dist.set (pget pairV v).toNat (Dval.succ (dget dist u))) i
              = Dval.int k ∧ k ≤ nLeft) ∨
            dget (dist.set (pget pairV v).toNat (Dval.succ (dget dist u))) i
              = Dval.int INF := by
          intro i hi
          by_cases hiw : i = (pget pairV v).toNat
          · subst hiw
            exact Or.inl ⟨du + 1, hset_w, hd1nb⟩
          · rw [hset_ne i hiw]
            exact hent i hi
        have hroots1 : ∀ i, i < nLeft → pget pairU i = -1 →
            dget (dist.set (pget pairV v).toNat (Dval.succ (dget dist u))) i
              = Dval.int 0 := by
          intro i hi hpi
          by_cases hiw : i = (pget pairV v).toNat
          · subst hiw
            rw [hroots _ hi hpi] at hINF
            have := Dval.int.inj hINF
            unfold INF at this
            omega
          · rw [hset_ne i hiw]
            exact hroots i hi hpi
        have hdu1 : dget (dist.set (pget pairV v).toNat (Dval.succ (dget dist u))) u
            = Dval.int du := by
          rw [hset_ne u hne_uw]
          exact hdu
        have hru1 : Rooted adj pairU pairV nLeft
            (dist.set (pget pairV v).toNat (Dval.succ (dget dist u))) u :=
          hru.mono hbound hupd1 hent
        have hrw1 : Rooted adj pairU pairV nLeft
            (dist.set (pget pairV v).toNat (Dval.succ (dget dist u)))
            (pget pairV v).toNat :=
          Rooted.step hru1 hvadj hofnat.symm hwN hdu1 hset_w
        have hq1 : ∀ x ∈ q ++ [(pget pairV v).toNat], x < nLeft ∧
            Rooted adj pairU pairV nLeft
              (dist.set (pget pairV v).toNat (Dval.succ (dget dist u))) x ∧
            ∃ k, dget (dist.set (pget pairV v).toNat (Dval.succ (dget dist u))) x
              = Dval.int k ∧
              k + cINF (dist.set (pget pairV v).toNat (Dval.succ (dget dist u)))
                ≤ nLeft := by
          intro x hx
          rcases List.mem_append.mp hx with hx | hx
          · obtain ⟨hx1, hx2, k, hk1, hk2⟩ := hq x hx
            have hxw : x ≠ (pget pairV v).toNat := by
              intro he
              rw [he, hINF] at hk1
              have := Dval.int.inj hk1
              unfold INF at this hbound
              omega
            refine ⟨hx1, hx2.mono hbound hupd1 hent, k, ?_, by omega⟩
            rw [hset_ne x hxw]
            exact hk1
          · rw [List.mem_singleton] at hx
            subst hx
            exact ⟨hwN, hrw1, du + 1, hset_w, by omega⟩
        have hfound1 : found = true → ∃ x, x < nLeft ∧
            Rooted adj pairU pairV nLeft
              (dist.set (pget pairV v).toNat (Dval.succ (dget dist u))) x ∧
            ∃ w ∈ aget adj x, pget pairV w = -1 := by
          intro hf
          obtain ⟨x, hx1, hx2, w, hw1, hw2⟩ := hfound hf
          exact ⟨x, hx1, hx2.mono hbound hupd1 hent, w, hw1, hw2⟩
        obtain ⟨c1, c2, c3, c4, c5, c6, c7, c8, c9, c10, c11⟩ :=
          ihvs (dist.set (pget pairV v).toNat (Dval.succ (dget dist u)))
            (q ++ [(pget pairV v).toNat]) found
            (by rw [List.length_set]; exact hlen) hent1 hroots1 hdu1 (by omega)
            hru1 hvs' hq1 hfound1 dist1 q1 found1 heq
        refine ⟨bfsUpd_trans hupd1 c1, c2, c3, c4, ?_, c6, c7, c8, ?_, ?_, ?_⟩
        · rw [List.length_append] at c5
          simp only [List.length_singleton] at c5
          omega
        · intro v2 hv2
          rcases List.mem_cons.mp hv2 with he | hv2
          · subst he
            refine ⟨fun h => absurd h hpv, fun _ => ?_⟩
            refine c1.not_inf_mono hbound ?_
            rw [hset_w]
            intro hc
            have := Dval.int.inj hc
            unfold INF at this hbound
            omega
          · exact c9 v2 hv2
        · intro x hx h1 h2
          by_cases hxw : x = (pget pairV v).toNat
          · subst hxw
            exact c11 _ (List.mem_append.mpr (Or.inr (List.mem_singleton_self _)))
          · exact c10 x hx (by rw [hset_ne x hxw]; exact h1) h2
        · intro x hx
          exact c11 x (List.mem_append.mpr (Or.inl hx))
      · -- matched neighbor already layered: skip
        rw [bfsScan_cons, if_neg hpv, if_neg hINF] at heq
        obtain ⟨c1, c2, c3, c4, c5, c6, c7, c8, c9, c10, c11⟩ :=
          ihvs dist q found hlen hent hroots hdu hmeas hru hvs' hq hfound
            dist1 q1 found1 heq
        refine ⟨c1, c2, c3, c4, c5, c6, c7, c8, ?_, c10, c11⟩
        intro v2 hv2
        rcases List.mem_cons.mp hv2 with he | hv2
        · subst he
          exact ⟨fun h => absurd h hpv, fun _ => c1.not_inf_mono hbound hINF⟩
        · exact c9 v2 hv2

theorem bfsLoop_nil (adj : List (List Nat)) (pairV : List Int) (fuel : Nat)
    (dist : List Dval) (found : Bool) :
    bfsLoop adj pairV (fuel + 1) [] dist found = some (dist, found) := rfl

theorem bfsLoop_cons (adj : List (List Nat)) (pairV : List Int) (fuel : Nat) (u : Nat)
    (qrest : List Nat) (dist : List Dval) (found : Bool) :
    bfsLoop adj pairV (fuel + 1) (u :: qrest) dist found =
      (match bfsScan pairV u (aget adj u) dist qrest found with
       | (dist1, q1, found1) => bfsLoop adj pairV fuel q1 dist1 found1) := rfl

theorem bfsLoop_ok (adj : List (List Nat)) (pairU pairV : List Int) (nLeft nRight : Nat)
    (hadj : AdjWF adj nRight) (hbound : nLeft + 1 < INF)
    (hwp : PairsWF adj nLeft nRight pairU pairV) :
    ∀ fuel q dist found,
      dist.length = nLeft →
      (∀ i, i < nLeft → (∃ k, dget dist i = Dval.int k ∧ k ≤ nLeft) ∨
        dget dist i = Dval.int INF) →
      (∀ i, i < nLeft → pget pairU i = -1 → dget dist i = Dval.int 0) →
      (∀ x ∈ q, x < nLeft ∧ Rooted adj pairU pairV nLeft dist x ∧
        ∃ k, dget dist x = Dval.int k ∧ k + cINF dist ≤ nLeft) →
      (found = true → ∃ x, x < nLeft ∧ Rooted adj pairU pairV nLeft dist x ∧
        ∃ w ∈ aget adj x, pget pairV w = -1) →
      (∀ x, x < nLeft → dget dist x ≠ Dval.int INF → x ∈ q ∨
        ((∀ w ∈ aget adj x, pget pairV w = -1 → found = true) ∧
         (∀ w ∈ aget adj x, pget pairV w ≠ -1 →
           dget dist (pget pairV w).toNat ≠ Dval.int INF))) →
      q.length + cINF dist + 1 ≤ fuel →
      ∃ dist1 found1, bfsLoop adj pairV fuel q dist found = some (dist1, found1) ∧
        dist1.length = nLeft ∧
        (∀ i, i < nLeft → (∃ k, dget dist1 i = Dval.int k ∧ k ≤ nLeft) ∨
          dget dist1 i = Dval.int INF) ∧
        (∀ i, i < nLeft → pget pairU i = -1 → dget dist1 i = Dval.int 0) ∧
        (found1 = true → ∃ x, x < nLeft ∧ Rooted adj pairU pairV nLeft dist1 x ∧
          ∃ w ∈ aget adj x, pget pairV w = -1) ∧
        (found1 = false → ∀ x, x < nLeft → dget dist1 x ≠ Dval.int INF →
          (∀ w ∈ aget adj x, pget pairV w ≠ -1) ∧
          (∀ w ∈ aget adj x, pget pairV w ≠ -1 →
            dget dist1 (pget pairV w).toNat ≠ Dval.int INF)) := by
  intro fuel
  induction fuel with
  | zero =>
    intro q dist found _ _ _ _ _ _ hbudget
    omega
  | succ fuel ih =>
    intro q dist found hlen hent hroots hq hfound hclos hbudget
    cases q with
    | nil =>
      refine ⟨dist, found, bfsLoop_nil adj pairV fuel dist found, hlen, hent, hroots,
        hfound, ?_⟩
      intro hf1 x hx hxINF
      rcases hclos x hx hxINF with hmem | ⟨hd1, hd2⟩
      · exact absurd hmem (List.not_mem_nil x)
      · refine ⟨fun w hw hc => ?_, hd2⟩
        rw [hd1 w hw hc] at hf1
        cases hf1
    | cons u qrest =>
      obtain ⟨huN, hru, du, hdu, hmeas⟩ := hq u (List.mem_cons_self u qrest)
      have hqrest : ∀ x ∈ qrest, x < nLeft ∧ Rooted adj pairU pairV nLeft dist x ∧
          ∃ k, dget dist x = Dval.int k ∧ k + cINF dist ≤ nLeft :=
        fun x hx => hq x (List.mem_cons_of_mem u hx)
      rcases hsc : bfsScan pairV u (aget adj u) dist qrest found with ⟨dist2, q2, found2⟩
      obtain ⟨c1, c2, c3, c4, c5, c6, c7, c8, c9, c10, c11⟩ :=
        bfsScan_ok adj pairU pairV nLeft nRight hadj hbound hwp u du (aget adj u)
          dist qrest found hlen hent hroots hdu hmeas hru (fun w hw => hw) hqrest hfound
          dist2 q2 found2 hsc
      have hloopeq : bfsLoop adj pairV (fuel + 1) (u :: qrest) dist found =
          bfsLoop adj pairV fuel q2 dist2 found2 := by
        rw [bfsLoop_cons, hsc]
      have hclos2 : ∀ x, x < nLeft → dget dist2 x ≠ Dval.int INF → x ∈ q2 ∨
          ((∀ w ∈ aget adj x, pget pairV w = -1 → found2 = true) ∧
           (∀ w ∈ aget adj x, pget pairV w ≠ -1 →
             dget dist2 (pget pairV w).toNat ≠ Dval.int INF)) := by
        intro x hx hxINF
        by_cases hxold : dget dist x = Dval.int INF
        · exact Or.inl (c10 x hx hxold hxINF)
        · rcases hclos x hx hxold with hmem | ⟨hd1, hd2⟩
          · rcases List.mem_cons.mp hmem with rfl | hmem
            · refine Or.inr ⟨fun w hw hc => (c9 w hw).1 hc, fun w hw hc => (c9 w hw).2 hc⟩
            · exact Or.inl (c11 x hmem)
          · refine Or.inr ⟨fun w hw hc => c8 (hd1 w hw hc),
              fun w hw hc => c1.not_inf_mono hbound (hd2 w hw hc)⟩
      have hbudget2 : q2.length + cINF dist2 + 1 ≤ fuel := by
        simp only [List.length_cons] at hbudget
        omega
      obtain ⟨dist3, found3, heq3, rest3⟩ :=
        ih q2 dist2 found2 c2 c3 c4 c6 c7 hclos2 hbudget2
      exact ⟨dist3, found3, by rw [hloopeq]; exact heq3, rest3⟩

/-- Plain (unlayered) alternating reachability of an unmatched right vertex
from a left vertex: an adjacency edge to an unmatched right vertex, or an
adjacency edge to a matched right vertex followed by reachability from its
partner.  `is_valid` is complete iff no unmatched left vertex has this
property at exit. -/
inductive AugReach (adj : List (List Nat)) (pairV : List Int) : Nat → Prop
  | base {u v : Nat} : v ∈ aget adj u → pget pairV v = -1 → AugReach adj pairV u
  | step {u v u' : Nat} : v ∈ aget adj u → pget pairV v = Int.ofNat u' →
      AugReach adj pairV u' → AugReach adj pairV u

theorem bfsInit_length (pairU : List Int) (nLeft : Nat) :
    (bfsInit pairU nLeft).1.length = nLeft := by
  unfold bfsInit
  rw [List.length_map, List.length_range]

theorem bfsInit_dget (pairU : List Int) (nLeft i : Nat) (hi : i < nLeft) :
    dget (bfsInit pairU nLeft).1 i =
      if pget pairU i = -1 then Dval.int 0 else Dval.int INF := by
  unfold bfsInit
  have hi2 : i < ((List.range nLeft).map fun u =>
      if pget pairU u = -1 then Dval.int 0 else Dval.int INF).length := by
    rw [List.length_map, List.length_range]; exact hi
  rw [dget_get _ i hi2, List.get_map, List.get_range]

theorem bfsInit_qmem (pairU : List Int) (nLeft x : Nat) :
    x ∈ (bfsInit pairU nLeft).2 ↔ x < nLeft ∧ pget pairU x = -1 := by
  unfold bfsInit
  rw [List.mem_filter, List.mem_range]
  simp

theorem no_augreach_of_done {adj : List (List Nat)} {pairV : List Int}
    {nLeft nRight : Nat} (hadj : AdjWF adj nRight)
    (hvr : ∀ w, w < nRight → pget pairV w = -1 ∨
      (0 ≤ pget pairV w ∧ pget pairV w < (nLeft : Int)))
    (dist1 : List Dval)
    (hdone : ∀ x, x < nLeft → dget dist1 x ≠ Dval.int INF →
      (∀ w ∈ aget adj x, pget pairV w ≠ -1) ∧
      (∀ w ∈ aget adj x, pget pairV w ≠ -1 →
        dget dist1 (pget pairV w).toNat ≠ Dval.int INF)) :
    ∀ x, AugReach adj pairV x → x < nLeft → dget dist1 x ≠ Dval.int INF → False := by
  intro x hreach
  induction hreach with
  | base hv hm =>
    intro hx hxi
    exact ((hdone _ hx hxi).1 _ hv) hm
  | @step uu vv uu1 hv hm hr ih =>
    intro hx hxi
    have h2 := (hdone uu hx hxi).2 vv hv (by rw [hm, Int.ofNat_eq_natCast]; omega)
    have htn : (pget pairV vv).toNat = uu1 := by rw [hm, toNat_ofNat_eq]
    rw [htn] at h2
    have huu1 : uu1 < nLeft := AugPath.next_lt hadj hvr hv hm
    exact ih huu1 h2

theorem bfsRun_ok (adj : List (List Nat)) (pairU pairV : List Int) (nLeft nRight : Nat)
    (hadj : AdjWF adj nRight) (hbound : nLeft + 1 < INF)
    (hwp : PairsWF adj nLeft nRight pairU pairV) (fuel : Nat)
    (hfuel : 2 * nLeft + 1 ≤ fuel) :
    ∃ dist1 found1, bfsRun adj pairU pairV nLeft fuel = some (dist1, found1) ∧
      dist1.length = nLeft ∧
      (∀ i, i < nLeft → (∃ k, dget dist1 i = Dval.int k ∧ k ≤ nLeft) ∨
        dget dist1 i = Dval.int INF) ∧
      (∀ i, i < nLeft → pget pairU i = -1 → dget dist1 i = Dval.int 0) ∧
      (found1 = true → ∃ u0 p0, u0 < nLeft ∧ pget pairU u0 = -1 ∧
        AugPath adj pairV dist1 0 u0 p0) ∧
      (found1 = false → ∀ x, x < nLeft → pget pairU x = -1 → ¬ AugReach adj pairV x) := by
  have hlen0 := bfsInit_length pairU nLeft
  have hent0 : ∀ i, i < nLeft → (∃ k, dget (bfsInit pairU nLeft).1 i = Dval.int k ∧
      k ≤ nLeft) ∨ dget (bfsInit pairU nLeft).1 i = Dval.int INF := by
    intro i hi
    rw [bfsInit_dget pairU nLeft i hi]
    by_cases hpi : pget pairU i = -1
    · exact Or.inl ⟨0, by rw [if_pos hpi], by omega⟩
    · exact Or.inr (by rw [if_neg hpi])
  have hroots0 : ∀ i, i < nLeft → pget pairU i = -1 →
      dget (bfsInit pairU nLeft).1 i = Dval.int 0 := by
    intro i hi hpi
    rw [bfsInit_dget pairU nLeft i hi, if_pos hpi]
  have hcle : cINF (bfsInit pairU nLeft).1 ≤ nLeft := by
    have := List.countP_le_length (fun e => decide (e = Dval.int INF))
      (l := (bfsInit pairU nLeft).1)
    unfold cINF
    omega
  have hq0 : ∀ x ∈ (bfsInit pairU nLeft).2, x < nLeft ∧
      Rooted adj pairU pairV nLeft (bfsInit pairU nLeft).1 x ∧
      ∃ k, dget (bfsInit pairU nLeft).1 x = Dval.int k ∧
        k + cINF (bfsInit pairU nLeft).1 ≤ nLeft := by
    intro x hx
    rw [bfsInit_qmem] at hx
    obtain ⟨hx1, hx2⟩ := hx
    exact ⟨hx1, Rooted.base hx1 hx2 (hroots0 x hx1 hx2), 0, hroots0 x hx1 hx2, by omega⟩
  have hclos0 : ∀ x, x < nLeft → dget (bfsInit pairU nLeft).1 x ≠ Dval.int INF →
      x ∈ (bfsInit pairU nLeft).2 ∨
      ((∀ w ∈ aget adj x, pget pairV w = -1 → false = true) ∧
       (∀ w ∈ aget adj x, pget pairV w ≠ -1 →
         dget (bfsInit pairU nLeft).1 (pget pairV w).toNat ≠ Dval.int INF)) := by
    intro x hx hxINF
    left
    rw [bfsInit_qmem]
    refine ⟨hx, ?_⟩
    by_contra hpx
    rw [bfsInit_dget pairU nLeft x hx, if_neg hpx] at hxINF
    exact hxINF rfl
  have hqlen : (bfsInit pairU nLeft).2.length ≤ nLeft := by
    have h1 : (bfsInit pairU nLeft).2.length ≤ (List.range nLeft).length :=
      List.length_filter_le _ _
    rw [List.length_range] at h1
    exact h1
  obtain ⟨dist1, found1, heq, hlen1, hent1, hroots1, hfound1, hdone1⟩ :=
    bfsLoop_ok adj pairU pairV nLeft nRight hadj hbound hwp fuel
      (bfsInit pairU nLeft).2 (bfsInit pairU nLeft).1 false hlen0 hent0 hroots0 hq0
      (fun h => by cases h) hclos0 (by omega)
  refine ⟨dist1, found1, heq, hlen1, hent1, hroots1, ?_, ?_⟩
  · intro hf
    obtain ⟨x, hx1, hx2, w, hw1, hw2⟩ := hfound1 hf
    rcases hx2.layer with ⟨ℓ, hℓ⟩
    exact hx2.to_aug ℓ [(x, w)] hℓ (AugPath.last hw1 hw2 hℓ)
  · intro hf x hx hpx hreach
    have hdone := hdone1 hf
    have h0 : dget dist1 x ≠ Dval.int INF := by
      rw [hroots1 x hx hpx]
      intro hc
      have := Dval.int.inj hc
      unfold INF at this
      omega
    exact no_augreach_of_done hadj hwp.vRange dist1 hdone x hreach hx h0

/-! ### The augmenting phase and driver loop -/

theorem hkPhase_nil (adj : List (List Nat)) (fuel : Nat) (st : HKSt) (matching : Nat) :
    hkPhase adj fuel [] st matching = some (st, matching) := rfl

theorem hkPhase_cons (adj : List (List Nat)) (fuel u : Nat) (us : List Nat) (st : HKSt)
    (matching : Nat) :
    hkPhase adj fuel (u :: us) st matching =
      (if pget st.pairU u = -1 then
        match dfs adj fuel u st with
        | none => none
        | some (true, st1) => hkPhase adj fuel us st1 (matching + 1)
        | some (false, st1) => hkPhase adj fuel us st1 matching
      else hkPhase adj fuel us st matching) := rfl

theorem hkPhase_ok (adj : List (List Nat)) (nLeft nRight fuel : Nat)
    (hadj : AdjWF adj nRight) (hbound : nLeft + 1 < INF) (hfuel : nLeft + 2 ≤ fuel) :
    ∀ us st matching,
      PairsWF adj nLeft nRight st.pairU st.pairV →
      DistWF nLeft st.dist →
      (∀ x ∈ us, x < nLeft) →
      us.Nodup →
      (∀ x ∈ us, pget st.pairU x = -1 → dget st.dist x = Dval.int 0) →
      matching = matchedCount st.pairU →
      ∃ st1 m1, hkPhase adj fuel us st matching = some (st1, m1) ∧
        PairsWF adj nLeft nRight st1.pairU st1.pairV ∧
        m1 = matchedCount st1.pairU ∧
        matching ≤ m1 ∧
        (∀ u0, u0 ∈ us → pget st.pairU u0 = -1 →
          (∃ p, AugPath adj st.pairV st.dist 0 u0 p) → matching < m1) := by
  have hdfs := dfs_ok adj nLeft nRight hadj hbound fuel
  intro us
  induction us with
  | nil =>
    intro st matching hw hdw _ _ _ hm
    exact ⟨st, matching, hkPhase_nil adj fuel st matching, hw, hm, le_refl _,
      fun u0 h0 => absurd h0 (List.not_mem_nil u0)⟩
  | cons u us ihus =>
    intro st matching hw hdw hlt hnd hroots hm
    have huN : u < nLeft := hlt u (List.mem_cons_self u us)
    have hlt' : ∀ x ∈ us, x < nLeft := fun x hx => hlt x (List.mem_cons_of_mem u hx)
    have hnd' : us.Nodup := (List.nodup_cons.mp hnd).2
    have hune : u ∉ us := (List.nodup_cons.mp hnd).1
    by_cases hpu : pget st.pairU u = -1
    · have hd0 : dget st.dist u = Dval.int 0 :=
        hroots u (List.mem_cons_self u us) hpu
      obtain ⟨fT, fD, fA, fB⟩ := hdfs st u 0 hw hdw huN hd0 (by omega)
      cases hrec : dfs adj fuel u st with
      | none => exact absurd hrec (fT (by omega))
      | some br =>
        rcases br with ⟨b, stR⟩
        cases b with
        | true =>
          obtain ⟨p, hp, hU, hV, hev, hpres⟩ := fB stR hrec
          obtain ⟨hwR, hcount⟩ := hp.flip_wf hadj hw huN hpu
          rw [← hU] at hwR
          rw [← hV] at hwR
          have hmR : matching + 1 = matchedCount stR.pairU := by
            rw [hU, hcount, hm]
          have hrootsR : ∀ x ∈ us, pget stR.pairU x = -1 →
              dget stR.dist x = Dval.int 0 := by
            intro x hx hpx
            refine hpres x 0 ?_ (by omega)
            refine hroots x (List.mem_cons_of_mem u hx) ?_
            by_contra hold
            have hflip := hp.flip_mutual hadj hw.lenU hw.lenV hw.vRange huN
            by_cases hmem : ∃ q ∈ p, q.1 = x
            · rcases hmem with ⟨q, hq, rfl⟩
              rw [hU, (hflip q hq).1, Int.ofNat_eq_natCast] at hpx
              omega
            · push_neg at hmem
              rw [hU, flipU_untouched st.pairU p x hmem] at hpx
              exact hold hpx
          have hdwR : DistWF nLeft stR.dist := hdw.evol hev
          have heq : hkPhase adj fuel (u :: us) st matching =
              hkPhase adj fuel us stR (matching + 1) := by
            rw [hkPhase_cons, if_pos hpu, hrec]
          obtain ⟨st1, m1, heq1, hw1, hm1, hle1, hprog1⟩ :=
            ihus stR (matching + 1) hwR hdwR hlt' hnd' hrootsR hmR
          refine ⟨st1, m1, by rw [heq]; exact heq1, hw1, hm1, by omega,
            fun u0 _ _ _ => by omega⟩
        | false =>
          obtain ⟨hU, hV, hev, hlp, hpres⟩ := fA stR hrec
          have hwR : PairsWF adj nLeft nRight stR.pairU stR.pairV := by
            rw [hU, hV]; exact hw
          have hdwR : DistWF nLeft stR.dist := hdw.evol hev
          have hrootsR : ∀ x ∈ us, pget stR.pairU x = -1 →
              dget stR.dist x = Dval.int 0 := by
            intro x hx hpx
            rw [hU] at hpx
            refine hlp x 0 (fun he => hune (he ▸ hx)) ?_ (by omega)
            exact hroots x (List.mem_cons_of_mem u hx) hpx
          have hmR : matching = matchedCount stR.pairU := by rw [hU]; exact hm
          have heq : hkPhase adj fuel (u :: us) st matching =
              hkPhase adj fuel us stR matching := by
            rw [hkPhase_cons, if_pos hpu, hrec]
          obtain ⟨st1, m1, heq1, hw1, hm1, hle1, hprog1⟩ :=
            ihus stR matching hwR hdwR hlt' hnd' hrootsR hmR
          refine ⟨st1, m1, by rw [heq]; exact heq1, hw1, hm1, hle1, ?_⟩
          intro u0 h0 hp0 hpath0
          rcases List.mem_cons.mp h0 with he | h0
          · subst he
            rcases hpath0 with ⟨p0, hp0path⟩
            exact absurd hrec (fD p0 hp0path stR)
          · rcases hpath0 with ⟨p0, hp0path⟩
            have hpath0R := hpres u0 0 p0 hp0path
            refine hprog1 u0 h0 (by rw [hU]; exact hp0) ⟨p0, hpath0R⟩
    · have heq : hkPhase adj fuel (u :: us) st matching =
          hkPhase adj fuel us st matching := by
        rw [hkPhase_cons, if_neg hpu]
      have hroots' : ∀ x ∈ us, pget st.pairU x = -1 → dget st.dist x = Dval.int 0 :=
        fun x hx => hroots x (List.mem_cons_of_mem u hx)
      obtain ⟨st1, m1, heq1, hw1, hm1, hle1, hprog1⟩ :=
        ihus st matching hw hdw hlt' hnd' hroots' hm
      refine ⟨st1, m1, by rw [heq]; exact heq1, hw1, hm1, hle1, ?_⟩
      intro u0 h0 hp0 hpath0
      rcases List.mem_cons.mp h0 with he | h0
      · subst he
        exact absurd hp0 hpu
      · exact hprog1 u0 h0 hp0 hpath0

theorem hkLoop_eq (adj : List (List Nat)) (nLeft fuel loopFuel : Nat) (st : HKSt)
    (matching : Nat) :
    hkLoop adj nLeft fuel (loopFuel + 1) st matching =
      (match bfsRun adj st.pairU st.pairV nLeft fuel with
       | none => none
       | some (dist1, found) =>
         if found then
           match hkPhase adj fuel (List.range nLeft) { st with dist := dist1 } matching with
           | none => none
           | some (st1, m1) => hkLoop adj nLeft fuel loopFuel st1 m1
         else some (matching, { st with dist := dist1 })) := rfl

theorem hkLoop_ok (adj : List (List Nat)) (nLeft nRight fuel : Nat)
    (hadj : AdjWF adj nRight) (hbound : nLeft + 1 < INF)
    (hfuel : 2 * nLeft + 2 ≤ fuel) :
    ∀ loopFuel st matching,
      PairsWF adj nLeft nRight st.pairU st.pairV →
      matching = matchedCount st.pairU →
      nLeft + 1 ≤ loopFuel + matching →
      ∃ m1 st1, hkLoop adj nLeft fuel loopFuel st matching = some (m1, st1) ∧
        PairsWF adj nLeft nRight st1.pairU st1.pairV ∧
        m1 = matchedCount st1.pairU ∧
        (∀ x, x < nLeft → pget st1.pairU x = -1 → ¬ AugReach adj st1.pairV x) := by
  intro loopFuel
  induction loopFuel with
  | zero =>
    intro st matching hw hm hbudget
    have h1 : matchedCount st.pairU ≤ nLeft := by
      have := matchedCount_le_length st.pairU
      rw [hw.lenU] at this
      exact this
    omega
  | succ loopFuel ih =>
    intro st matching hw hm hbudget
    obtain ⟨dist1, found1, hbfseq, hlen1, hent1, hroots1, hfoundT, hfoundF⟩ :=
      bfsRun_ok adj st.pairU st.pairV nLeft nRight hadj hbound hw fuel (by omega)
    cases found1 with
    | false =>
      have heq : hkLoop adj nLeft fuel (loopFuel + 1) st matching =
          some (matching, { st with dist := dist1 }) := by
        rw [hkLoop_eq, hbfseq]
        rfl
      exact ⟨matching, { st with dist := dist1 }, heq, hw, hm,
        fun x hx hpx => hfoundF rfl x hx hpx⟩
    | true =>
      obtain ⟨u0, p0, hu0, hpu0, hpath0⟩ := hfoundT rfl
      have hdw1 : DistWF nLeft dist1 := by
        refine ⟨hlen1, fun i hi => ?_⟩
        rcases hent1 i hi with ⟨k, hk, hkn⟩ | hk
        · exact Or.inr ⟨k, hk, Or.inl hkn⟩
        · exact Or.inr ⟨INF, hk, Or.inr rfl⟩
      obtain ⟨st1, m1, hpheq, hw1, hm1, hle1, hprog1⟩ :=
        hkPhase_ok adj nLeft nRight fuel hadj hbound (by omega) (List.range nLeft)
          { st with dist := dist1 } matching hw hdw1
          (fun x hx => List.mem_range.mp hx) (List.nodup_range nLeft)
          (fun x hx hpx => hroots1 x (List.mem_range.mp hx) hpx) hm
      have hprogress : matching < m1 :=
        hprog1 u0 (List.mem_range.mpr hu0) hpu0 ⟨p0, hpath0⟩
      have heq : hkLoop adj nLeft fuel (loopFuel + 1) st matching =
          hkLoop adj nLeft fuel loopFuel st1 m1 := by
        rw [hkLoop_eq, hbfseq]
        show (if true = true then _ else _) = _
        rw [if_pos rfl, hpheq]
      obtain ⟨m2, st2, heq2, hw2, hm2, hdone2⟩ :=
        ih st1 m1 hw1 hm1 (by omega)
      exact ⟨m2, st2, by rw [heq]; exact heq2, hw2, hm2, hdone2⟩

theorem pget_replicate_neg (n i : Nat) : pget (List.replicate n (-1 : Int)) i = -1 := by
  rw [pget_eq]
  rcases h : (List.replicate n (-1 : Int)).get? i with _ | x
  · rfl
  · rw [List.eq_of_mem_replicate (List.get?_mem h)]
    rfl

theorem hopcroftKarp_ok (adj : List (List Nat)) (nLeft nRight : Nat)
    (hadj : AdjWF adj nRight) (hlenadj : adj.length = nLeft) (hbound : nLeft + 1 < INF)
    (fuel : Nat) (hfuel : 2 * nLeft + 2 ≤ fuel) :
    ∃ m pU pV, hopcroftKarp adj nLeft nRight fuel = some (Except.ok (m, pU, pV)) ∧
      PairsWF adj nLeft nRight pU pV ∧ m = matchedCount pU ∧
      (∀ x, x < nLeft → pget pU x = -1 → ¬ AugReach adj pV x) := by
  have hw0 : PairsWF adj nLeft nRight (List.replicate nLeft (-1))
      (List.replicate nRight (-1)) := by
    refine ⟨List.length_replicate nLeft (-1), List.length_replicate nRight (-1),
      fun u _ => Or.inl (pget_replicate_neg nLeft u),
      fun v _ => Or.inl (pget_replicate_neg nRight v), ⟨?_, ?_⟩, ?_⟩
    · intro u _ hne
      exact absurd (pget_replicate_neg nLeft u) hne
    · intro v _ hne
      exact absurd (pget_replicate_neg nRight v) hne
    · intro u _ hne
      exact absurd (pget_replicate_neg nLeft u) hne
  obtain ⟨m1, st1, heq1, hw1, hm1, hdone1⟩ :=
    hkLoop_ok adj nLeft nRight fuel hadj hbound hfuel fuel
      { pairU := List.replicate nLeft (-1), pairV := List.replicate nRight (-1),
        dist := List.replicate nLeft (Dval.int 0) } 0 hw0
      (matchedCount_replicate_neg nLeft).symm (by omega)
  refine ⟨m1, st1.pairU, st1.pairV, ?_, hw1, hm1, hdone1⟩
  unfold hopcroftKarp
  rw [if_neg (fun h => h hlenadj), heq1]
  rfl

theorem countP_eq_sum {α : Type} (l : List α) (p : α → Bool) :
    l.countP p = ∑ i : Fin l.length, if p (l.get i) then 1 else 0 := by
  induction l with
  | nil => simp
  | cons a t ih =>
    rw [List.countP_cons]
    simp only [List.length_cons]
    rw [Fin.sum_univ_succ]
    have hsucc : ∀ i : Fin t.length, (a :: t).get i.succ = t.get i := fun i => rfl
    simp only [List.get_cons_zero, hsucc]
    rw [← ih]
    omega

theorem matchedCount_eq_card (pairU : List Int) :
    matchedCount pairU =
      (Finset.univ.filter (fun i : Fin pairU.length => pget pairU i.1 ≠ -1)).card := by
  unfold matchedCount
  rw [countP_eq_sum, Finset.card_filter]
  refine Finset.sum_congr rfl ?_
  intro i _
  rw [pget_get pairU i.1 i.2]
  simp

theorem matchedCount_le_right (pairU pairV : List Int) (nLeft nRight : Nat)
    (hlenU : pairU.length = nLeft) (hlenV : pairV.length = nRight)
    (hur : ∀ u, u < nLeft → pget pairU u = -1 ∨
      (0 ≤ pget pairU u ∧ pget pairU u < (nRight : Int)))
    (hcons : Consistent pairU pairV) :
    matchedCount pairU ≤ nRight := by
  rw [matchedCount_eq_card]
  have hle : (Finset.univ.filter
      (fun i : Fin pairU.length => pget pairU i.1 ≠ -1)).card ≤
      (Finset.range nRight).card := by
    refine Finset.card_le_card_of_injOn (fun i => (pget pairU i.1).toNat) ?_ ?_
    · intro i hi
      rw [Finset.mem_filter] at hi
      rcases hur i.1 (hlenU ▸ i.2) with h | ⟨hge, hlt⟩
      · exact absurd h hi.2
      · simp only [Finset.mem_range]
        omega
    · intro i1 hi1 i2 hi2 hee
      rw [Finset.mem_coe, Finset.mem_filter] at hi1 hi2
      rcases hur i1.1 (hlenU ▸ i1.2) with h | ⟨hge1, _⟩
      · exact absurd h hi1.2
      rcases hur i2.1 (hlenU ▸ i2.2) with h | ⟨hge2, _⟩
      · exact absurd h hi2.2
      have heqv : pget pairU i1.1 = pget pairU i2.1 := by
        simp only at hee
        omega
      have h1 := hcons.1 i1.1 i1.2 hi1.2
      have h2 := hcons.1 i2.1 i2.2 hi2.2
      rw [heqv] at h1
      have hii : (i1.1 : Int) = i2.1 := by rw [← h1, h2]
      exact Fin.ext (by omega)
  rw [Finset.card_range] at hle
  exact hle

/-! ### Completeness: a feasible assignment forces augmenting reach -/

/-- One step along the alternating chain `u, partner-of-f(u), ...` used in the
completeness argument (stays put when the partner data is out of range). -/
def chainNext {k : Nat} (pV : List Int) (f : Fin k → Fin k) (u : Fin k) : Fin k :=
  if h : 0 ≤ pget pV (f u).1 ∧ pget pV (f u).1 < (k : Int) then
    ⟨(pget pV (f u).1).toNat, by omega⟩
  else u

/-- Iterated alternating chain from an unmatched position. -/
def chainIter {k : Nat} (pV : List Int) (f : Fin k → Fin k) (u0 : Fin k) : Nat → Fin k
  | 0 => u0
  | n + 1 => chainNext pV f (chainIter pV f u0 n)

theorem exists_augreach_of_assignment {adj : List (List Nat)} {pU pV : List Int} {k : Nat}
    (hw : PairsWF adj k k pU pV)
    (f : Fin k → Fin k) (hfinj : Function.Injective f)
    (hedge : ∀ i : Fin k, (f i).1 ∈ aget adj i.1)
    (u0 : Fin k) (hu0 : pget pU u0.1 = -1) :
    AugReach adj pV u0.1 := by
  by_contra hna
  -- every chain iterate still cannot reach an unmatched right vertex
  have hnr : ∀ n, ¬ AugReach adj pV (chainIter pV f u0 n).1 := by
    intro n
    induction n with
    | zero => exact hna
    | succ n ih =>
      show ¬ AugReach adj pV (chainNext pV f (chainIter pV f u0 n)).1
      unfold chainNext
      by_cases h : 0 ≤ pget pV (f (chainIter pV f u0 n)).1 ∧
          pget pV (f (chainIter pV f u0 n)).1 < (k : Int)
      · rw [dif_pos h]
        intro hr
        refine ih (AugReach.step (hedge (chainIter pV f u0 n)) ?_ hr)
        rw [Int.ofNat_eq_natCast, Int.toNat_of_nonneg h.1]
      · rw [dif_neg h]
        exact ih
  -- each step goes to the genuine matched partner
  have hstep : ∀ n, pget pV (f (chainIter pV f u0 n)).1 =
      Int.ofNat (chainIter pV f u0 (n + 1)).1 ∧
      pget pU (chainIter pV f u0 (n + 1)).1 = Int.ofNat (f (chainIter pV f u0 n)).1 := by
    intro n
    have hvR : (f (chainIter pV f u0 n)).1 < k := (f (chainIter pV f u0 n)).2
    rcases hw.vRange _ hvR with hm | ⟨hge, hlt⟩
    · exact absurd (AugReach.base (hedge _) hm) (hnr n)
    · have hcond : 0 ≤ pget pV (f (chainIter pV f u0 n)).1 ∧
          pget pV (f (chainIter pV f u0 n)).1 < (k : Int) := ⟨hge, hlt⟩
      have hne : pget pV (f (chainIter pV f u0 n)).1 ≠ -1 := by omega
      have hch : chainIter pV f u0 (n + 1) =
          ⟨(pget pV (f (chainIter pV f u0 n)).1).toNat, by omega⟩ := by
        show chainNext pV f (chainIter pV f u0 n) = _
        unfold chainNext
        rw [dif_pos hcond]
      constructor
      · rw [hch, Int.ofNat_eq_natCast, Int.toNat_of_nonneg hge]
      · have hc := hw.mutual_rec.2 _ (hw.lenV ▸ hvR) hne
        rw [hch]
        show pget pU (pget pV (f (chainIter pV f u0 n)).1).toNat = _
        rw [hc, Int.ofNat_eq_natCast]
  -- successors are matched, so never equal to the unmatched start
  have hne0 : ∀ n, chainIter pV f u0 (n + 1) ≠ u0 := by
    intro n he
    have h2 := (hstep n).2
    rw [he, hu0] at h2
    rw [Int.ofNat_eq_natCast] at h2
    omega
  -- the chain is backward deterministic, hence injective
  have hback : ∀ a b, chainIter pV f u0 (a + 1) = chainIter pV f u0 (b + 1) →
      chainIter pV f u0 a = chainIter pV f u0 b := by
    intro a b he
    have ha := (hstep a).2
    have hb := (hstep b).2
    rw [he, hb] at ha
    rw [Int.ofNat_eq_natCast, Int.ofNat_eq_natCast] at ha
    have hfe : (f (chainIter pV f u0 b)).1 = (f (chainIter pV f u0 a)).1 := by omega
    exact hfinj (Fin.ext hfe).symm
  have hinj : ∀ a b, chainIter pV f u0 a = chainIter pV f u0 b → a = b := by
    intro a
    induction a with
    | zero =>
      intro b he
      cases b with
      | zero => rfl
      | succ b => exact absurd he.symm (hne0 b)
    | succ a ih =>
      intro b he
      cases b with
      | zero => exact absurd he (hne0 a)
      | succ b => rw [ih b (hback a b he)]
  have hcard : k + 1 ≤ k := by
    have := Fintype.card_le_of_injective
      (fun i : Fin (k + 1) => chainIter pV f u0 i.1)
      (fun i j hij => Fin.ext (hinj i.1 j.1 hij))
    simpa using this
  omega

/-! ### The `is_valid` correctness theorem -/

/-- The specification predicate of C1: the word's positions can be assigned
bijectively to the packets with each character a member of its packet. -/
def Criterion (word : List Char) (sets : List (List Char)) : Prop :=
  ∃ f : Fin word.length → Fin sets.length, Function.Bijective f ∧
    ∀ i : Fin word.length, word.get i ∈ sets.get (f i)

theorem build_adj_facts (word : List Char) (sets : List (List Char))
    (adj : List (List Nat)) (h : build word sets = some adj) :
    word.length = sets.length ∧ adj.length = sets.length ∧ AdjWF adj sets.length ∧
    ∀ i : Fin word.length, aget adj i.1 = posEdges (word.get i) sets := by
  obtain ⟨hlen, hdef⟩ := build_some_length word sets adj h
  subst hdef
  refine ⟨hlen, by rw [List.length_map]; exact hlen, ?_, ?_⟩
  · intro l hl j hj
    rcases List.mem_map.mp hl with ⟨ch, _, rfl⟩
    exact posEdges_sub ch sets j hj
  · intro i
    have hi2 : i.1 < (word.map fun ch => posEdges ch sets).length := by
      rw [List.length_map]; exact i.2
    rw [aget_eq, List.get?_eq_get hi2]
    show ((word.map fun ch => posEdges ch sets).get ⟨i.1, hi2⟩) = _
    rw [List.get_map]

theorem isValidF_build_some (fuel : Nat) (word : List Char) (sets : List (List Char))
    (adj : List (List Nat)) (m : Nat) (pU pV : List Int)
    (hb : build word sets = some adj)
    (hk : hopcroftKarp adj sets.length sets.length fuel = some (Except.ok (m, pU, pV))) :
    isValidF fuel word sets = some (decide (m = sets.length)) := by
  unfold isValidF
  rw [hb]
  show (match hopcroftKarp adj sets.length sets.length fuel with
    | some (Except.ok (mm, _, _)) => some (decide (mm = sets.length))
    | _ => none) = some (decide (m = sets.length))
  rw [hk]

theorem mem_posEdges_fin (word : List Char) (sets : List (List Char))
    (i : Fin word.length) (j : Fin sets.length) :
    j.1 ∈ posEdges (word.get i) sets ↔ word.get i ∈ sets.get j := by
  rw [mem_posEdges]
  constructor
  · rintro ⟨s, hget, hmem⟩
    rw [List.get?_eq_get j.2] at hget
    rw [← Option.some.inj hget] at hmem
    exact hmem
  · intro hmem
    exact ⟨sets.get j, List.get?_eq_get j.2, hmem⟩

/-- Main correctness lemma, shared by several results below: `is_valid` decides
the bijective-assignment criterion (for words shorter than the `INF = 10**9`
distance sentinel, which every realizable input satisfies). -/
theorem isValid_eq_true_iff (word : List Char) (sets : List (List Char))
    (hbound : word.length + 1 < INF) :
    isValid word sets = true ↔ Criterion word sets := by
  constructor
  · intro hv
    unfold isValid at hv
    cases hb : build word sets with
    | none =>
      unfold isValidF at hv
      rw [hb] at hv
      simp at hv
    | some adj =>
      obtain ⟨hleneq, hadjlen, hadjwf, hchar⟩ := build_adj_facts word sets adj hb
      obtain ⟨m, pU, pV, hkeq, hw, hm, hdone⟩ :=
        hopcroftKarp_ok adj sets.length sets.length hadjwf hadjlen (by omega)
          (hkFuel word) (by unfold hkFuel; omega)
      rw [isValidF_build_some (hkFuel word) word sets adj m pU pV hb hkeq] at hv
      simp only [Option.getD_some, decide_eq_true_eq] at hv
      have hall : ∀ u, u < sets.length → pget pU u ≠ -1 := by
        intro u hu
        refine matchedCount_eq_length_all pU ?_ u (by rw [hw.lenU]; exact hu)
        rw [hw.lenU, ← hm, hv]
      have hrange : ∀ i : Fin word.length, (pget pU i.1).toNat < sets.length := by
        intro i
        have hi : i.1 < sets.length := hleneq ▸ i.2
        rcases hw.uRange i.1 hi with hc | ⟨hge, hlt⟩
        · exact absurd hc (hall i.1 hi)
        · omega
      have hinj : Function.Injective
          (fun i : Fin word.length => (⟨(pget pU i.1).toNat, hrange i⟩ : Fin sets.length)) := by
        intro i1 i2 he
        have hi1 : i1.1 < sets.length := hleneq ▸ i1.2
        have hi2 : i2.1 < sets.length := hleneq ▸ i2.2
        rcases hw.uRange i1.1 hi1 with hc | ⟨hge1, _⟩
        · exact absurd hc (hall i1.1 hi1)
        rcases hw.uRange i2.1 hi2 with hc | ⟨hge2, _⟩
        · exact absurd hc (hall i2.1 hi2)
        have heqv : pget pU i1.1 = pget pU i2.1 := by
          have := Fin.val_eq_of_eq he
          simp only at this
          omega
        have h1 := hw.mutual_rec.1 i1.1 (by rw [hw.lenU]; exact hi1) (hall i1.1 hi1)
        have h2 := hw.mutual_rec.1 i2.1 (by rw [hw.lenU]; exact hi2) (hall i2.1 hi2)
        rw [heqv] at h1
        have : (i1.1 : Int) = i2.1 := by rw [← h1, h2]
        exact Fin.ext (by omega)
      refine ⟨fun i => ⟨(pget pU i.1).toNat, hrange i⟩, ?_, ?_⟩
      · refine (Fintype.bijective_iff_injective_and_card _).mpr ⟨hinj, ?_⟩
        simp [hleneq]
      · intro i
        have hi : i.1 < sets.length := hleneq ▸ i.2
        have hedge := hw.edge i.1 hi (hall i.1 hi)
        rw [hchar i] at hedge
        exact (mem_posEdges_fin word sets i ⟨(pget pU i.1).toNat, hrange i⟩).mp hedge
  · rintro ⟨f, hfbij, hfmem⟩
    have hleneq : word.length = sets.length := by
      have := Fintype.card_of_bijective hfbij
      simpa using this
    cases hb : build word sets with
    | none =>
      exfalso
      unfold build at hb
      rw [if_neg (fun h => h hleneq)] at hb
      obtain ⟨ch, hch, hempty⟩ := (buildAux_none_iff sets word).mp hb
      rcases List.mem_iff_get.mp hch with ⟨i, rfl⟩
      have : (f i).1 ∈ posEdges (word.get i) sets :=
        (mem_posEdges_fin word sets i (f i)).mpr (hfmem i)
      rw [hempty] at this
      exact List.not_mem_nil _ this
    | some adj =>
      obtain ⟨_, hadjlen, hadjwf, hchar⟩ := build_adj_facts word sets adj hb
      obtain ⟨m, pU, pV, hkeq, hw, hm, hdone⟩ :=
        hopcroftKarp_ok adj sets.length sets.length hadjwf hadjlen (by omega)
          (hkFuel word) (by unfold hkFuel; omega)
      have hmk : m = sets.length := by
        by_contra hne
        have hmle : matchedCount pU ≤ sets.length := by
          have := matchedCount_le_length pU
          rw [hw.lenU] at this
          exact this
        have hlt : matchedCount pU < pU.length := by
          rw [hw.lenU]
          omega
        obtain ⟨u0, hu0len, hu0⟩ := matchedCount_lt_exists pU hlt
        rw [hw.lenU] at hu0len
        have hfinj2 : Function.Injective
            (fun i : Fin sets.length => f (Fin.cast hleneq.symm i)) :=
          fun i1 i2 he => by
            have h2 := congrArg Fin.val (hfbij.1 he)
            exact Fin.ext h2
        have hedge2 : ∀ i : Fin sets.length,
            ((fun i : Fin sets.length => f (Fin.cast hleneq.symm i)) i).1 ∈ aget adj i.1 := by
          intro i
          have := (mem_posEdges_fin word sets (Fin.cast hleneq.symm i)
            (f (Fin.cast hleneq.symm i))).mpr (hfmem (Fin.cast hleneq.symm i))
          rw [← hchar (Fin.cast hleneq.symm i)] at this
          exact this
        have hreach := exists_augreach_of_assignment hw
          (fun i : Fin sets.length => f (Fin.cast hleneq.symm i)) hfinj2 hedge2
          ⟨u0, hu0len⟩ hu0
        exact hdone u0 hu0len hu0 hreach
      unfold isValid
      rw [isValidF_build_some (hkFuel word) word sets adj m pU pV hb hkeq]
      simp [hmk]

/-- C1: `is_valid(word, letter_sets)` returns `True` if and only if there is a
bijection from word positions to packet indices assigning every position a
packet that contains its character (each packet used exactly once).  The
hypothesis keeps the word shorter than the `INF = 10**9` distance sentinel of
the implementation, which every realizable input satisfies. -/
theorem isValid_iff_criterion (word : List Char) (sets : List (List Char))
    (hbound : word.length + 1 < INF) :
    isValid word sets = true ↔ Criterion word sets :=
  isValid_eq_true_iff word sets hbound

theorem isValid_iff_criterion_w :
    Criterion ['c', 'a', 't'] [['c', 'k'], ['a', 'e'], ['t', 'd']] :=
  (isValid_iff_criterion ['c', 'a', 't'] [['c', 'k'], ['a', 'e'], ['t', 'd']]
    (by decide)).mp (by decide)

/-- C9: on a well-formed adjacency structure (`len(adj) = n_left`, every stored
edge a valid right-vertex index), `_hopcroft_karp` terminates and returns
normally: in the fuel embedding, the canonical budget `2 * n_left + 3` already
produces a `some (ok ...)` result, so the driver loop, the BFS queue loop and
every recursive `_dfs` call all terminate.  The hypothesis keeps `n_left`
below the `INF = 10**9` sentinel, which every realizable input satisfies. -/
theorem hopcroftKarp_terminates (adj : List (List Nat)) (nLeft nRight : Nat)
    (hadj : AdjWF adj nRight) (hlenadj : adj.length = nLeft)
    (hbound : nLeft + 1 < INF) :
    ∃ r, hopcroftKarp adj nLeft nRight (2 * nLeft + 3) = some (Except.ok r) := by
  obtain ⟨m, pU, pV, heq, _, _, _⟩ :=
    hopcroftKarp_ok adj nLeft nRight hadj hlenadj hbound (2 * nLeft + 3) (by omega)
  exact ⟨(m, pU, pV), heq⟩

theorem hopcroftKarp_terminates_w :
    ∃ r, hopcroftKarp [[0, 1], [0], [1]] 3 2 (2 * 3 + 3) = some (Except.ok r) :=
  hopcroftKarp_terminates [[0, 1], [0], [1]] 3 2
    (by intro l hl v hv; fin_cases hl <;> fin_cases hv <;> decide) rfl (by decide)

/-- C8: on a well-formed adjacency structure the matching size returned by
`_hopcroft_karp` is at most `min(n_left, n_right)`: at most `n_left` because
each matched left vertex contributes one, and at most `n_right` because
mutual recording makes `u ↦ pairU[u]` injective on matched left vertices. -/
theorem hopcroftKarp_matching_le_min (adj : List (List Nat)) (nLeft nRight : Nat)
    (hadj : AdjWF adj nRight) (hlenadj : adj.length = nLeft)
    (hbound : nLeft + 1 < INF) :
    ∃ m pU pV, hopcroftKarp adj nLeft nRight (2 * nLeft + 3) = some (Except.ok (m, pU, pV)) ∧
      m ≤ min nLeft nRight := by
  obtain ⟨m, pU, pV, heq, hw, hm, _⟩ :=
    hopcroftKarp_ok adj nLeft nRight hadj hlenadj hbound (2 * nLeft + 3) (by omega)
  refine ⟨m, pU, pV, heq, ?_⟩
  have h1 : matchedCount pU ≤ nLeft := by
    have := matchedCount_le_length pU
    rw [hw.lenU] at this
    exact this
  have h2 : matchedCount pU ≤ nRight :=
    matchedCount_le_right pU pV nLeft nRight hw.lenU hw.lenV hw.uRange hw.mutual_rec
  omega

theorem hopcroftKarp_matching_le_min_w :
    ∃ m pU pV, hopcroftKarp [[0, 1], [0], [1]] 3 2 (2 * 3 + 3) =
      some (Except.ok (m, pU, pV)) ∧ m ≤ min 3 2 :=
  hopcroftKarp_matching_le_min [[0, 1], [0], [1]] 3 2
    (by intro l hl v hv; fin_cases hl <;> fin_cases hv <;> decide) rfl (by decide)

/-! ### Claim C5: permutation invariance -/

theorem criterion_perm (word : List Char) (sets : List (List Char))
    (π : Equiv.Perm (Fin sets.length)) :
    Criterion word (List.ofFn fun j => sets.get (π j)) ↔ Criterion word sets := by
  constructor
  · rintro ⟨f, hbij, hmem⟩
    refine ⟨fun i => π (Fin.cast (List.length_ofFn _) (f i)), ?_, ?_⟩
    · exact π.bijective.comp ((finCongr (List.length_ofFn _)).bijective.comp hbij)
    · intro i
      have h1 := hmem i
      rw [List.get_ofFn] at h1
      exact h1
  · rintro ⟨f, hbij, hmem⟩
    refine ⟨fun i => Fin.cast (List.length_ofFn _).symm (π.symm (f i)), ?_, ?_⟩
    · exact (finCongr (List.length_ofFn _).symm).bijective.comp
        (π.symm.bijective.comp hbij)
    · intro i
      rw [List.get_ofFn]
      have h1 : Fin.cast (List.length_ofFn _)
          (Fin.cast (List.length_ofFn fun j => sets.get (π j)).symm (π.symm (f i))) =
          π.symm (f i) := Fin.ext rfl
      rw [h1, Equiv.apply_symm_apply]
      exact hmem i

/-- C5: permuting the packet list never changes the verdict: for every
permutation `π` of the packet indices, `is_valid` on the reordered list equals
`is_valid` on the original.  The hypothesis keeps the word shorter than the
`INF = 10**9` sentinel, which every realizable input satisfies. -/
theorem isValid_perm_invariant (word : List Char) (sets : List (List Char))
    (π : Equiv.Perm (Fin sets.length)) (hbound : word.length + 1 < INF) :
    isValid word (List.ofFn fun j => sets.get (π j)) = isValid word sets := by
  have h1 := isValid_eq_true_iff word (List.ofFn fun j => sets.get (π j)) hbound
  have h2 := isValid_eq_true_iff word sets hbound
  have h3 := criterion_perm word sets π
  by_cases hv : isValid word sets = true
  · rw [hv]
    exact h1.mpr (h3.mpr (h2.mp hv))
  · have h4 : isValid word (List.ofFn fun j => sets.get (π j)) ≠ true :=
      fun hc => hv (h2.mpr (h3.mp (h1.mp hc)))
    simp only [Bool.not_eq_true] at h4 hv
    rw [h4, hv]

theorem isValid_perm_invariant_w :
    isValid ['a', 'b'] (List.ofFn fun j => [['a'], ['b']].get
      ((Equiv.swap (⟨0, by decide⟩ : Fin ([['a'], ['b']] : List (List Char)).length)
        ⟨1, by decide⟩) j)) = isValid ['a', 'b'] [['a'], ['b']] :=
  isValid_perm_invariant ['a', 'b'] [['a'], ['b']]
    (Equiv.swap ⟨0, by decide⟩ ⟨1, by decide⟩) (by decide)

/-! ### Claim C6: singleton packets -/

theorem criterion_singletons (word letters : List Char) (hnd : letters.Nodup) :
    Criterion word (letters.map fun c => [c]) ↔ word.Perm letters := by
  have hsl : (letters.map fun c => [c]).length = letters.length := List.length_map _ _
  constructor
  · rintro ⟨f, hbij, hmem⟩
    have hlen : word.length = letters.length := by
      have := Fintype.card_of_bijective hbij
      simpa [hsl] using this
    have hget : ∀ i : Fin word.length,
        word.get i = letters.get (Fin.cast hsl (f i)) := by
      intro i
      have h1 := hmem i
      rw [List.get_eq_getElem, List.get_eq_getElem, List.getElem_map] at h1
      rw [List.mem_singleton] at h1
      rw [List.get_eq_getElem, List.get_eq_getElem]
      exact h1
    have hbij2 : Function.Bijective
        (fun j : Fin letters.length => Fin.cast hsl (f (Fin.cast hlen.symm j))) :=
      (finCongr hsl).bijective.comp (hbij.comp (finCongr hlen.symm).bijective)
    have hw : word = List.ofFn
        (fun j : Fin letters.length => letters.get (Fin.cast hsl (f (Fin.cast hlen.symm j)))) := by
      conv_lhs => rw [← List.ofFn_get word]
      rw [List.ofFn_congr hlen word.get]
      refine congrArg List.ofFn (funext fun j => ?_)
      rw [hget (Fin.cast hlen.symm j)]
    rw [hw]
    have hperm := Equiv.Perm.ofFn_comp_perm (Equiv.ofBijective _ hbij2) letters.get
    rw [List.ofFn_get letters] at hperm
    exact hperm
  · intro hperm
    have hlen : word.length = letters.length := hperm.length_eq
    have hwnd : word.Nodup := hperm.nodup_iff.mpr hnd
    have hmemw : ∀ i : Fin word.length, word.get i ∈ letters := by
      intro i
      exact hperm.mem_iff.mp (word.get_mem i.1 i.2)
    have hidx : ∀ i : Fin word.length, letters.indexOf (word.get i) < letters.length :=
      fun i => List.indexOf_lt_length.mpr (hmemw i)
    refine ⟨fun i => Fin.cast hsl.symm ⟨letters.indexOf (word.get i), hidx i⟩, ?_, ?_⟩
    · refine (Fintype.bijective_iff_injective_and_card _).mpr ⟨?_, by simp [hsl, hlen]⟩
      intro i1 i2 he
      have he2 : letters.indexOf (word.get i1) = letters.indexOf (word.get i2) :=
        congrArg Fin.val he
      have hv1 : letters.get ⟨letters.indexOf (word.get i1), hidx i1⟩ = word.get i1 :=
        List.indexOf_get (hidx i1)
      have hv2 : letters.get ⟨letters.indexOf (word.get i2), hidx i2⟩ = word.get i2 :=
        List.indexOf_get (hidx i2)
      have hgeq : word.get i1 = word.get i2 := by
        rw [← hv1, ← hv2]
        exact congrArg letters.get (Fin.ext he2)
      exact (hwnd.get_inj_iff).mp hgeq
    · intro i
      have hv1 : letters.get ⟨letters.indexOf (word.get i), hidx i⟩ = word.get i :=
        List.indexOf_get (hidx i)
      rw [List.get_eq_getElem, List.getElem_map]
      rw [List.mem_singleton]
      rw [← hv1]
      rfl

/-- C6: when every packet is a singleton of a distinct letter, `is_valid`
returns `True` exactly when the word is a permutation of those letters (each
letter used exactly once and nothing else).  The hypothesis keeps the word
shorter than the `INF = 10**9` sentinel, which every realizable input
satisfies. -/
theorem isValid_singletons (word letters : List Char) (hnd : letters.Nodup)
    (hbound : word.length + 1 < INF) :
    isValid word (letters.map fun c => [c]) = true ↔ word.Perm letters :=
  (isValid_eq_true_iff word (letters.map fun c => [c]) hbound).trans
    (criterion_singletons word letters hnd)

theorem isValid_singletons_w :
    (['t', 'a', 'c'] : List Char).Perm ['c', 'a', 't'] :=
  (isValid_singletons ['t', 'a', 'c'] ['c', 'a', 't'] (by decide) (by decide)).mp
    (by decide)

/-! ### Claim C7: the mutual-recording invariant

The invariant fails at the granularity of individual `_dfs` steps: an inner
recursive `_dfs` call rewires `pairU[pu]` (and a deeper `pairV` entry) before
its caller executes `pair_u[u] = v; pair_v[v] = u`, so between the inner
call's return and the caller's assignments we have `pairV[v] = pu` while
`pairU[pu] ≠ v`.  The concrete state below is reached in an actual run on
`adj = [[0, 1], [0]]` (second phase, top-level `_dfs(1)` recursing into
`_dfs(0)`).  At driver granularity the invariant does hold: before the loop,
after every top-level `_dfs` call, and in the returned state. -/

theorem dfs_breaks_consistency :
    Consistent [0, -1] [0, -1] ∧
    dfs [[0, 1], [0]] 5 0
        { pairU := [0, -1], pairV := [0, -1], dist := [Dval.int 1, Dval.int 0] } =
      some (true,
        { pairU := [1, -1], pairV := [0, 0], dist := [Dval.int 1, Dval.int 0] }) ∧
    ¬ Consistent [1, -1] [0, 0] := by decide

/-- C7 (amended): the mutual-recording invariant holds at driver granularity —
the initial all-unmatched state satisfies it, every top-level `_dfs` call (on
an unmatched root with BFS layer `0`, which is how the driver invokes `_dfs`)
maps a well-formed mutually recorded state to a mutually recorded state, and
the state returned by `_hopcroft_karp` is mutually recorded.  (The original
claim is refuted at `_dfs`-step granularity by the concrete run above: an
inner recursive `_dfs` call transiently breaks the invariant until its caller
completes its own pair assignments.) -/
theorem consistency_driver_level (adj : List (List Nat)) (nLeft nRight : Nat)
    (hadj : AdjWF adj nRight) (hlenadj : adj.length = nLeft)
    (hbound : nLeft + 1 < INF) :
    Consistent (List.replicate nLeft (-1)) (List.replicate nRight (-1)) ∧
    (∀ fuel u st st1 b, PairsWF adj nLeft nRight st.pairU st.pairV →
      DistWF nLeft st.dist → u < nLeft → pget st.pairU u = -1 →
      dget st.dist u = Dval.int 0 →
      dfs adj fuel u st = some (b, st1) → Consistent st1.pairU st1.pairV) ∧
    (∃ m pU pV,
      hopcroftKarp adj nLeft nRight (2 * nLeft + 3) = some (Except.ok (m, pU, pV)) ∧
      Consistent pU pV) := by
  refine ⟨?_, ?_, ?_⟩
  · constructor
    · intro u _ hne
      exact absurd (pget_replicate_neg nLeft u) hne
    · intro v _ hne
      exact absurd (pget_replicate_neg nRight v) hne
  · intro fuel u st st1 b hw hdw hu hroot hd0 heq
    have hok := dfs_ok adj nLeft nRight hadj hbound fuel st u 0 hw hdw hu hd0
      (Nat.zero_le nLeft)
    cases b with
    | false =>
      obtain ⟨hU, hV, _, _, _⟩ := hok.2.2.1 st1 heq
      rw [hU, hV]
      exact hw.mutual_rec
    | true =>
      obtain ⟨p, hpath, hU, hV, _, _⟩ := hok.2.2.2 st1 heq
      rw [hU, hV]
      exact (hpath.flip_wf hadj hw hu hroot).1.mutual_rec
  · obtain ⟨m, pU, pV, heq, hw, _, _⟩ :=
      hopcroftKarp_ok adj nLeft nRight hadj hlenadj hbound (2 * nLeft + 3) (by omega)
    exact ⟨m, pU, pV, heq, hw.mutual_rec⟩

theorem consistency_driver_level_w :
    ∃ m pU pV,
      hopcroftKarp [[0, 1], [0]] 2 2 (2 * 2 + 3) = some (Except.ok (m, pU, pV)) ∧
      Consistent pU pV :=
  (consistency_driver_level [[0, 1], [0]] 2 2
    (by intro l hl v hv; fin_cases hl <;> fin_cases hv <;> decide) rfl (by decide)).2.2

/-! ### Claim C10: totality and safety of `is_valid` -/

/-- C10: `is_valid` is total on every input (equal or different lengths, empty
word, empty or non-disjoint or empty packets): the builder either rejects the
query (verdict `False`) or produces an adjacency structure whose length is
exactly `len(letter_sets)` and all of whose stored edges are valid right-vertex
indices below `len(letter_sets)`, so the `ValueError` branch of
`_hopcroft_karp` is unreachable from `is_valid`, every array access is in
range, and the call returns a boolean.  The hypothesis keeps the word shorter
than the `INF = 10**9` sentinel, which every realizable input satisfies. -/
theorem isValid_total (word : List Char) (sets : List (List Char))
    (hbound : word.length + 1 < INF) :
    (∃ b : Bool, isValidF (hkFuel word) word sets = some b) ∧
    ∀ adj, build word sets = some adj →
      adj.length = sets.length ∧ AdjWF adj sets.length ∧
      ∃ r, hopcroftKarp adj sets.length sets.length (hkFuel word) =
        some (Except.ok r) := by
  cases hb : build word sets with
  | none =>
    refine ⟨⟨false, ?_⟩, ?_⟩
    · unfold isValidF
      rw [hb]
    · intro adj hadj
      exact absurd hadj (by simp)
  | some adj =>
    obtain ⟨hleneq, hadjlen, hadjwf, _⟩ := build_adj_facts word sets adj hb
    obtain ⟨m, pU, pV, hkeq, _, _, _⟩ :=
      hopcroftKarp_ok adj sets.length sets.length hadjwf hadjlen (by omega)
        (hkFuel word) (by unfold hkFuel; omega)
    refine ⟨⟨decide (m = sets.length),
      isValidF_build_some (hkFuel word) word sets adj m pU pV hb hkeq⟩, ?_⟩
    intro adj0 hadj0
    have hae : adj0 = adj := (Option.some.inj hadj0).symm
    subst hae
    exact ⟨hadjlen, hadjwf, ⟨(m, pU, pV), hkeq⟩⟩

theorem isValid_total_w :
    (∃ b : Bool, isValidF (hkFuel ['a', 'b']) ['a', 'b'] [['a', 'b'], []] = some b) ∧
    ∀ adj, build ['a', 'b'] [['a', 'b'], []] = some adj →
      adj.length = ([['a', 'b'], []] : List (List Char)).length ∧
      AdjWF adj ([['a', 'b'], []] : List (List Char)).length ∧
      ∃ r, hopcroftKarp adj ([['a', 'b'], []] : List (List Char)).length
        ([['a', 'b'], []] : List (List Char)).length (hkFuel ['a', 'b']) =
        some (Except.ok r) :=
  isValid_total ['a', 'b'] [['a', 'b'], []] (by decide)
